import Mathlib

/-!
Shallow embedding of `src/encoding.rs` from the rs485_encoder repository.

Bytes are modelled as natural numbers; the Rust `u8` range invariant
`b < 256` is carried as a hypothesis where a claim needs it.  A byte
buffer (`&[u8]` / `Vec<u8>`) is a `List Nat`.  Bits inside a buffer are
addressed exactly as the Rust code does: bit `i` of a buffer lives in
byte `i / 8` at shift `7 - i % 8` (most significant bit first).

Rust slice indexing panics when out of bounds; fallible operations are
modelled with `Option` (for a single access) and `Except RunError` (for
a whole decode call), where `RunError.outOfBounds` stands for an
out-of-bounds slice access (a Rust panic) and `RunError.decodingError p`
stands for the `io::Error` a decoder returns with bit position `p` in
its message.  Encoders only ever write inside the buffer they allocate
(proved below), so their writes use the unchecked `orBit`.
-/

namespace RS485

/-- Read bit `i` of a byte buffer: models `(buf[i / 8] >> (7 - i % 8)) & 1`.
Out-of-range byte accesses read as 0; every access the encoders perform is
in bounds, so this default is never exercised there. -/
def readBit (buf : List Nat) (i : Nat) : Nat :=
  (buf.getD (i / 8) 0 >>> (7 - i % 8)) &&& 1

/-- Checked read of bit `i`: `none` models a Rust indexing panic. -/
def readBitChk (buf : List Nat) (i : Nat) : Option Nat :=
  (buf.get? (i / 8)).map (fun b => (b >>> (7 - i % 8)) &&& 1)

/-- Unchecked bit write: models `buf[i / 8] |= v << (7 - i % 8)`.
(`List.set` is a no-op out of range; the encoders' writes are all in
bounds, so this matches the Rust semantics there.) -/
def orBit (buf : List Nat) (i : Nat) (v : Nat) : List Nat :=
  buf.set (i / 8) (buf.getD (i / 8) 0 ||| (v <<< (7 - i % 8)))

/-- Checked bit write, as in the decoders: `buf[i / 8] |= v << (7 - i % 8)`
with `none` modelling the Rust indexing panic. -/
def orBitChk (buf : List Nat) (i : Nat) (v : Nat) : Option (List Nat) :=
  (buf.get? (i / 8)).map (fun b => buf.set (i / 8) (b ||| (v <<< (7 - i % 8))))

/-- Checked bit clear, as in the decoders:
`buf[i / 8] &= !(1 << (7 - i % 8))` on `u8` (complement inside 8 bits). -/
def clearBitChk (buf : List Nat) (i : Nat) : Option (List Nat) :=
  (buf.get? (i / 8)).map (fun b => buf.set (i / 8) (b &&& (255 ^^^ (1 <<< (7 - i % 8)))))

/-- Failure of a decode call: `decodingError p` is the `io::Error`
(`InvalidData`, message naming bit position `p`) a decoder returns;
`outOfBounds` is a Rust panic from an out-of-bounds slice access. -/
inductive RunError where
  | decodingError (pos : Nat)
  | outOfBounds
deriving DecidableEq

instance instDecEqExcept {ε α : Type} [DecidableEq ε] [DecidableEq α] :
    DecidableEq (Except ε α)
  | .ok a, .ok b =>
    if h : a = b then .isTrue (by rw [h]) else .isFalse (fun hc => h (Except.ok.inj hc))
  | .ok _, .error _ => .isFalse (fun hc => Except.noConfusion hc)
  | .error _, .ok _ => .isFalse (fun hc => Except.noConfusion hc)
  | .error e, .error f =>
    if h : e = f then .isTrue (by rw [h]) else .isFalse (fun hc => h (Except.error.inj hc))

/-! ### NRZ (`NRZEncoding`) -/

/-- `NRZEncoding::encode`: returns the input unchanged. -/
def nrzEncode (input : List Nat) : List Nat := input

/-- `NRZEncoding::decode`: returns the input unchanged, always `Ok`. -/
def nrzDecode (encoded : List Nat) : Except RunError (List Nat) := .ok encoded

/-! ### NRZI (`NRZIEncoding`) -/

/-- Inner loop of `NRZIEncoding::encode` for one byte: for `bit` in
`(0..8).rev()`, toggle `last_state` when the data bit is 1, then OR the
state into the output byte.  Returns the encoded byte and the new state. -/
def nrziEncodeByte (byte : Nat) (state : Nat) : Nat × Nat :=
  (List.range 8).reverse.foldl
    (fun acc bit =>
      let data_bit := (byte >>> bit) &&& 1
      let last_state := if data_bit = 1 then acc.2 ^^^ 1 else acc.2
      (if last_state = 1 then acc.1 ||| (1 <<< bit) else acc.1, last_state))
    (0, state)

/-- Outer loop of `NRZIEncoding::encode`: one output byte per input byte,
threading `last_state` across bytes. -/
def nrziEncodeGo : Nat → List Nat → List Nat
  | _, [] => []
  | state, byte :: rest =>
    let p := nrziEncodeByte byte state
    p.1 :: nrziEncodeGo p.2 rest

/-- `NRZIEncoding::encode`, starting from `last_state = 1` (line high). -/
def nrziEncode (input : List Nat) : List Nat := nrziEncodeGo 1 input

/-- Inner loop of `NRZIEncoding::decode` for one byte: decoded bit is 1
exactly when the current encoded bit differs from `last_state`. -/
def nrziDecodeByte (byte : Nat) (state : Nat) : Nat × Nat :=
  (List.range 8).reverse.foldl
    (fun acc bit =>
      let current_state := (byte >>> bit) &&& 1
      let decoded_bit := if current_state = acc.2 then 0 else 1
      (acc.1 ||| (decoded_bit <<< bit), current_state))
    (0, state)

/-- Outer loop of `NRZIEncoding::decode`. -/
def nrziDecodeGo : Nat → List Nat → List Nat
  | _, [] => []
  | state, byte :: rest =>
    let p := nrziDecodeByte byte state
    p.1 :: nrziDecodeGo p.2 rest

/-- `NRZIEncoding::decode`, starting from `last_state = 1`; always `Ok`. -/
def nrziDecode (encoded : List Nat) : Except RunError (List Nat) :=
  .ok (nrziDecodeGo 1 encoded)

/-! ### FM0 (`FM0Encoding`) -/

/-- One iteration of the `FM0Encoding::encode` loop, acting on the
accumulator `(last_state, bit_idx, encoded)` given the current input bit:
for bit 1 emit `(last_state ^ 1, last_state)`; for bit 0 toggle
`last_state` first and emit it twice. -/
def fm0Step : Nat × Nat × List Nat → Nat → Nat × Nat × List Nat
  | (last_state, bit_idx, encoded), bit =>
    if bit = 1 then
      (last_state, bit_idx + 2,
        orBit (orBit encoded bit_idx (last_state ^^^ 1)) (bit_idx + 1) last_state)
    else
      (last_state ^^^ 1, bit_idx + 2,
        orBit (orBit encoded bit_idx (last_state ^^^ 1)) (bit_idx + 1) (last_state ^^^ 1))

/-- `FM0Encoding::encode`: loop over all `input.len() * 8` input bits,
writing two output bits each into a zeroed buffer of
`(input_bits * 2 + 7) / 8` bytes, starting from `last_state = 1`. -/
def fm0Encode (input : List Nat) : List Nat :=
  let input_bits := input.length * 8
  ((List.range input_bits).foldl (fun st i => fm0Step st (readBit input i))
      (1, 0, List.replicate ((input_bits * 2 + 7) / 8) 0)).2.2

/-- Loop of `FM0Encoding::decode` over the remaining cells: cell `bit_idx`
occupies encoded bits `2*bit_idx` and `2*bit_idx + 1`; equal symbols
decode to 0 (bit clear), unequal to 1 (bit set). -/
def fm0DecodeGo (encoded : List Nat) : Nat → Nat → List Nat → Except RunError (List Nat)
  | _, 0, decoded => .ok decoded
  | bit_idx, cells + 1, decoded =>
    let i := 2 * bit_idx
    match readBitChk encoded i, readBitChk encoded (i + 1) with
    | some first_bit, some second_bit =>
      if first_bit = second_bit then
        match clearBitChk decoded bit_idx with
        | some d => fm0DecodeGo encoded (bit_idx + 1) cells d
        | none => .error .outOfBounds
      else
        match orBitChk decoded bit_idx 1 with
        | some d => fm0DecodeGo encoded (bit_idx + 1) cells d
        | none => .error .outOfBounds
    | _, _ => .error .outOfBounds

/-- `FM0Encoding::decode`: the Rust loop runs over
`(0..encoded.len() * 8).step_by(2)`, i.e. `encoded.len() * 8 / 2` cells,
into a zeroed buffer of `encoded.len() / 2` bytes. -/
def fm0Decode (encoded : List Nat) : Except RunError (List Nat) :=
  fm0DecodeGo encoded 0 (encoded.length * 8 / 2) (List.replicate (encoded.length / 2) 0)

/-! ### FM1 (`FM1Encoding`) -/

/-- One iteration of the `FM1Encoding::encode` loop: for bit 1 toggle
`last_state` first; then emit `last_state` twice. -/
def fm1Step : Nat × Nat × List Nat → Nat → Nat × Nat × List Nat
  | (last_state, bit_idx, encoded), bit =>
    let last_state := if bit = 1 then last_state ^^^ 1 else last_state
    (last_state, bit_idx + 2,
      orBit (orBit encoded bit_idx last_state) (bit_idx + 1) last_state)

/-- `FM1Encoding::encode`. -/
def fm1Encode (input : List Nat) : List Nat :=
  let input_bits := input.length * 8
  ((List.range input_bits).foldl (fun st i => fm1Step st (readBit input i))
      (1, 0, List.replicate ((input_bits * 2 + 7) / 8) 0)).2.2

/-- Loop of `FM1Encoding::decode`: a cell whose two symbols differ is an
error reported at encoded-bit position `i = 2 * bit_idx`; otherwise the
decoded bit is 1 exactly when the first symbol differs from `last_state`,
and `last_state` becomes the second symbol. -/
def fm1DecodeGo (encoded : List Nat) : Nat → Nat → Nat → List Nat → Except RunError (List Nat)
  | _, _, 0, decoded => .ok decoded
  | last_state, bit_idx, cells + 1, decoded =>
    let i := 2 * bit_idx
    match readBitChk encoded i, readBitChk encoded (i + 1) with
    | some first_bit, some second_bit =>
      if first_bit ≠ second_bit then .error (.decodingError i)
      else if first_bit ≠ last_state then
        match orBitChk decoded bit_idx 1 with
        | some d => fm1DecodeGo encoded second_bit (bit_idx + 1) cells d
        | none => .error .outOfBounds
      else
        match clearBitChk decoded bit_idx with
        | some d => fm1DecodeGo encoded second_bit (bit_idx + 1) cells d
        | none => .error .outOfBounds
    | _, _ => .error .outOfBounds

/-- `FM1Encoding::decode`, starting from `last_state = 1`. -/
def fm1Decode (encoded : List Nat) : Except RunError (List Nat) :=
  fm1DecodeGo encoded 1 0 (encoded.length * 8 / 2) (List.replicate (encoded.length / 2) 0)

/-! ### Manchester (`ManchesterEncoding`) -/

/-- One iteration of the `ManchesterEncoding::encode` loop on the
accumulator `(bit_idx, encoded)`: bit 1 emits `(0, 1)` (low then high),
bit 0 emits `(1, 0)` (high then low). -/
def manStep : Nat × List Nat → Nat → Nat × List Nat
  | (bit_idx, encoded), bit =>
    if bit = 1 then
      (bit_idx + 2, orBit (orBit encoded bit_idx 0) (bit_idx + 1) 1)
    else
      (bit_idx + 2, orBit (orBit encoded bit_idx 1) (bit_idx + 1) 0)

/-- `ManchesterEncoding::encode`. -/
def manchesterEncode (input : List Nat) : List Nat :=
  let input_bits := input.length * 8
  ((List.range input_bits).foldl (fun st i => manStep st (readBit input i))
      (0, List.replicate ((input_bits * 2 + 7) / 8) 0)).2

/-- Loop of `ManchesterEncoding::decode`: cell `(0, 1)` decodes to 1,
cell `(1, 0)` decodes to 0, anything else is an error reported at
encoded-bit position `i = 2 * bit_idx`. -/
def manchesterDecodeGo (encoded : List Nat) : Nat → Nat → List Nat → Except RunError (List Nat)
  | _, 0, decoded => .ok decoded
  | bit_idx, cells + 1, decoded =>
    let i := 2 * bit_idx
    match readBitChk encoded i, readBitChk encoded (i + 1) with
    | some first_bit, some second_bit =>
      if first_bit = 0 ∧ second_bit = 1 then
        match orBitChk decoded bit_idx 1 with
        | some d => manchesterDecodeGo encoded (bit_idx + 1) cells d
        | none => .error .outOfBounds
      else if first_bit = 1 ∧ second_bit = 0 then
        match clearBitChk decoded bit_idx with
        | some d => manchesterDecodeGo encoded (bit_idx + 1) cells d
        | none => .error .outOfBounds
      else .error (.decodingError i)
    | _, _ => .error .outOfBounds

/-- `ManchesterEncoding::decode`. -/
def manchesterDecode (encoded : List Nat) : Except RunError (List Nat) :=
  manchesterDecodeGo encoded 0 (encoded.length * 8 / 2) (List.replicate (encoded.length / 2) 0)

/-! ### The codec selector (`EncodingType` and its `get_encoder` dispatch) -/

/-- The five supported codec variants (`enum EncodingType`). -/
inductive EncodingType where
  | NRZ
  | NRZI
  | FM0
  | FM1
  | Manchester
deriving DecidableEq

/-- Per-variant clock multiplier: models each variant's
`get_clock_ratio` method (1 for NRZ/NRZI, 2 for FM0/FM1/Manchester). -/
def clockRatioOf : EncodingType → Nat
  | .NRZ => 1
  | .NRZI => 1
  | .FM0 => 2
  | .FM1 => 2
  | .Manchester => 2

/-- `encode` dispatched through `EncodingType::get_encoder`. -/
def EncodingType.encode : EncodingType → List Nat → List Nat
  | .NRZ => nrzEncode
  | .NRZI => nrziEncode
  | .FM0 => fm0Encode
  | .FM1 => fm1Encode
  | .Manchester => manchesterEncode

/-- `decode` dispatched through `EncodingType::get_encoder`. -/
def EncodingType.decode : EncodingType → List Nat → Except RunError (List Nat)
  | .NRZ => nrzDecode
  | .NRZI => nrziDecode
  | .FM0 => fm0Decode
  | .FM1 => fm1Decode
  | .Manchester => manchesterDecode

/-! ### Derived notions used to state and prove the properties

Everything below is specification/proof vocabulary about the buffers the
code above manipulates; the translations of the Rust functions are all
above this point. -/

/-- First symbol of 2-bit cell `k` of a ratio-2 encoded buffer. -/
def cellFst (buf : List Nat) (k : Nat) : Nat := readBit buf (2 * k)

/-- Second symbol of 2-bit cell `k` of a ratio-2 encoded buffer. -/
def cellSnd (buf : List Nat) (k : Nat) : Nat := readBit buf (2 * k + 1)

/-- The `last_state` the FM1 decoder holds when it reaches cell `k`
of a stream whose earlier cells all have equal symbols: the second
symbol of the previous cell, or 1 (line high) before the first cell. -/
def fm1Prev (buf : List Nat) (k : Nat) : Nat :=
  if k = 0 then 1 else cellSnd buf (k - 1)

/-- Index of the first cell among `k, k+1, …, k+c-1` whose two symbols
differ (the cells the FM1 decoder rejects). -/
def firstDiffFrom (buf : List Nat) : Nat → Nat → Option Nat
  | _, 0 => none
  | k, c + 1 =>
    if cellFst buf k ≠ cellSnd buf k then some k else firstDiffFrom buf (k + 1) c

/-- Index of the first cell among `k, k+1, …, k+c-1` whose two symbols
are equal (the cells the Manchester decoder rejects). -/
def firstEqFrom (buf : List Nat) : Nat → Nat → Option Nat
  | _, 0 => none
  | k, c + 1 =>
    if cellFst buf k = cellSnd buf k then some k else firstEqFrom buf (k + 1) c

/-- Write the given bits at consecutive bit positions starting at
`start`, by ORing each into the buffer. -/
def writeBits (buf : List Nat) (start : Nat) : List Nat → List Nat
  | [] => buf
  | b :: rest => writeBits (orBit buf start b) (start + 1) rest

/-- Pack a bit sequence into a zeroed buffer of `n` bytes, most
significant bit of byte 0 first. -/
def pack (n : Nat) (bits : List Nat) : List Nat :=
  writeBits (List.replicate n 0) 0 bits

/-- The 8 bits of one byte, most significant first, each read the way
the Rust code reads them: `(b >> (7 - k)) & 1`. -/
def byteBits (b : Nat) : List Nat :=
  (List.range 8).map (fun k => (b >>> (7 - k)) &&& 1)

/-- All bits of a byte buffer, most significant bit of byte 0 first. -/
def bitList : List Nat → List Nat
  | [] => []
  | b :: rest => byteBits b ++ bitList rest

/-- The bit stream `FM0Encoding::encode` emits for the given input bits
from state `s`: bit 1 ↦ `(s ^ 1, s)` keeping `s`; bit 0 ↦ toggle `s`
then emit it twice. -/
def fm0Bits : Nat → List Nat → List Nat
  | _, [] => []
  | s, b :: rest =>
    if b = 1 then (s ^^^ 1) :: s :: fm0Bits s rest
    else (s ^^^ 1) :: (s ^^^ 1) :: fm0Bits (s ^^^ 1) rest

/-- Line state after `FM0Encoding::encode` processes the given bits. -/
def fm0FinalState : Nat → List Nat → Nat
  | s, [] => s
  | s, b :: rest => if b = 1 then fm0FinalState s rest else fm0FinalState (s ^^^ 1) rest

/-- The bit stream `FM1Encoding::encode` emits: bit 1 ↦ toggle `s` then
emit it twice; bit 0 ↦ emit `s` twice. -/
def fm1Bits : Nat → List Nat → List Nat
  | _, [] => []
  | s, b :: rest =>
    if b = 1 then (s ^^^ 1) :: (s ^^^ 1) :: fm1Bits (s ^^^ 1) rest
    else s :: s :: fm1Bits s rest

/-- Line state after `FM1Encoding::encode` processes the given bits. -/
def fm1FinalState : Nat → List Nat → Nat
  | s, [] => s
  | s, b :: rest => if b = 1 then fm1FinalState (s ^^^ 1) rest else fm1FinalState s rest

/-- The bit stream `ManchesterEncoding::encode` emits: bit 1 ↦ `(0, 1)`,
bit 0 ↦ `(1, 0)`. -/
def manBits : List Nat → List Nat
  | [] => []
  | b :: rest => if b = 1 then 0 :: 1 :: manBits rest else 1 :: 0 :: manBits rest

/-- The bits the FM0 decoder writes for cells `k, …, k+c-1`:
0 for a cell with equal symbols, 1 otherwise. -/
def fm0CellBits (encoded : List Nat) : Nat → Nat → List Nat
  | _, 0 => []
  | k, c + 1 =>
    (if cellFst encoded k = cellSnd encoded k then 0 else 1) :: fm0CellBits encoded (k + 1) c

/-- The bits the FM1 decoder writes for cells `k, …, k+c-1` starting
from `last_state = s`, assuming no cell is rejected: 1 when the cell's
first symbol differs from the running state, which then becomes the
cell's second symbol. -/
def fm1CellBits (encoded : List Nat) : Nat → Nat → Nat → List Nat
  | _, _, 0 => []
  | s, k, c + 1 =>
    (if cellFst encoded k ≠ s then 1 else 0) ::
      fm1CellBits encoded (cellSnd encoded k) (k + 1) c

/-- The bits the Manchester decoder writes for cells `k, …, k+c-1`,
assuming no cell is rejected: 1 for cell `(0, 1)`, 0 for cell `(1, 0)`. -/
def manCellBits (encoded : List Nat) : Nat → Nat → List Nat
  | _, 0 => []
  | k, c + 1 =>
    (if cellFst encoded k = 0 ∧ cellSnd encoded k = 1 then 1 else 0) ::
      manCellBits encoded (k + 1) c

/-! ## Lemmas about the bit-access primitives -/

theorem readBit_le_one (buf : List Nat) (i : Nat) : readBit buf i ≤ 1 := by
  unfold readBit
  rw [Nat.and_one_is_mod]
  omega

theorem readBit_eq_testBit (buf : List Nat) (i : Nat) :
    readBit buf i = ((buf.getD (i / 8) 0).testBit (7 - i % 8)).toNat := by
  unfold readBit
  rw [Nat.and_one_is_mod, Nat.shiftRight_eq_div_pow, Nat.testBit_to_div_mod]
  rcases Nat.mod_two_eq_zero_or_one (buf.getD (i / 8) 0 / 2 ^ (7 - i % 8)) with h | h <;>
    rw [h] <;> simp

theorem getD_set_self (l : List Nat) (m a : Nat) (h : m < l.length) :
    (l.set m a).getD m 0 = a := by
  rw [List.getD_eq_getElem?_getD, List.getElem?_set, if_pos rfl, if_pos h]
  rfl

theorem getD_set_ne (l : List Nat) (m n a : Nat) (h : m ≠ n) :
    (l.set m a).getD n 0 = l.getD n 0 := by
  rw [List.getD_eq_getElem?_getD, List.getElem?_set, if_neg h,
    List.getD_eq_getElem?_getD]

theorem getD_zero_lt (buf : List Nat) (n : Nat) (hb : ∀ x ∈ buf, x < 256) :
    buf.getD n 0 < 256 := by
  rcases Nat.lt_or_ge n buf.length with h | h
  · rw [List.getD_eq_getElem?_getD, List.getElem?_eq_getElem h]
    exact hb _ (List.getElem_mem h)
  · rw [List.getD_eq_getElem?_getD, List.getElem?_eq_none h]
    norm_num

theorem readBit_of_len_le (buf : List Nat) (i : Nat) (h : 8 * buf.length ≤ i) :
    readBit buf i = 0 := by
  unfold readBit
  have hlen : buf.length ≤ i / 8 := by
    rw [Nat.le_div_iff_mul_le (by norm_num)]
    omega
  rw [List.getD_eq_getElem?_getD, List.getElem?_eq_none hlen]
  simp

theorem orBit_length (buf : List Nat) (i v : Nat) :
    (orBit buf i v).length = buf.length := by
  unfold orBit
  exact List.length_set buf _ _

theorem shiftLeft_small_lt (v k : Nat) (hv : v ≤ 1) (hk : k ≤ 7) :
    v <<< k < 256 := by
  rw [Nat.shiftLeft_eq]
  calc v * 2 ^ k ≤ 1 * 2 ^ 7 :=
        Nat.mul_le_mul hv (Nat.pow_le_pow_right (by norm_num) hk)
    _ < 256 := by norm_num

theorem orBit_lt (buf : List Nat) (i v : Nat) (hb : ∀ x ∈ buf, x < 256) (hv : v ≤ 1) :
    ∀ x ∈ orBit buf i v, x < 256 := by
  unfold orBit
  intro x hx
  rcases List.mem_or_eq_of_mem_set hx with h | h
  · exact hb x h
  · subst h
    have h1 : buf.getD (i / 8) 0 < 256 := getD_zero_lt buf _ hb
    have h2 : v <<< (7 - i % 8) < 256 := shiftLeft_small_lt v _ hv (by omega)
    have := Nat.or_lt_two_pow (n := 8) h1 h2
    simpa using this

theorem testBit_shiftLeft_small (v k m : Nat) (hv : v ≤ 1) (hne : m ≠ k) :
    (v <<< k).testBit m = false := by
  rw [Nat.testBit_shiftLeft]
  rcases Nat.lt_or_ge m k with h | h
  · simp [Nat.not_le_of_lt h]
  · have hmk : 1 ≤ m - k := by omega
    have : v < 2 ^ (m - k) := by
      calc v ≤ 1 := hv
        _ < 2 ^ 1 := by norm_num
        _ ≤ 2 ^ (m - k) := Nat.pow_le_pow_right (by norm_num) hmk
    simp [Nat.testBit_lt_two_pow this]

theorem testBit_shiftLeft_self (v k : Nat) :
    (v <<< k).testBit k = v.testBit 0 := by
  rw [Nat.testBit_shiftLeft]
  simp

theorem readBit_orBit (buf : List Nat) (i j v : Nat) (hj : j / 8 < buf.length)
    (hv : v ≤ 1) :
    readBit (orBit buf j v) i = if i = j then readBit buf i ||| v else readBit buf i := by
  have hset : (orBit buf j v).getD (i / 8) 0 =
      if j / 8 = i / 8 then buf.getD (i / 8) 0 ||| (v <<< (7 - j % 8))
      else buf.getD (i / 8) 0 := by
    unfold orBit
    by_cases hbyte : j / 8 = i / 8
    · rw [if_pos hbyte, ← hbyte, getD_set_self _ _ _ hj]
    · rw [if_neg hbyte, getD_set_ne _ _ _ _ hbyte]
  rw [readBit_eq_testBit, readBit_eq_testBit, hset]
  by_cases hbyte : j / 8 = i / 8
  · rw [if_pos hbyte, Nat.testBit_or]
    by_cases hij : i = j
    · subst hij
      rw [if_pos rfl, testBit_shiftLeft_self]
      interval_cases v <;>
        rcases Bool.eq_false_or_eq_true ((buf.getD (i / 8) 0).testBit (7 - i % 8)) with h | h <;>
          rw [h] <;> decide
    · have hmod : i % 8 ≠ j % 8 := by
        intro hm
        exact hij (by omega)
      have hne : (7 - i % 8) ≠ (7 - j % 8) := by omega
      rw [testBit_shiftLeft_small v _ _ hv hne, if_neg hij]
      simp
  · have hij : i ≠ j := by
      intro h
      exact hbyte (by rw [h])
    rw [if_neg hbyte, if_neg hij]

/-! ## Lemmas about `writeBits`, `pack` and `bitList` -/

theorem writeBits_length (bits : List Nat) : ∀ (buf : List Nat) (start : Nat),
    (writeBits buf start bits).length = buf.length := by
  induction bits with
  | nil => intro buf start; rfl
  | cons b rest ih =>
    intro buf start
    show (writeBits (orBit buf start b) (start + 1) rest).length = _
    rw [ih, orBit_length]

theorem writeBits_lt (bits : List Nat) : ∀ (buf : List Nat) (start : Nat),
    (∀ b ∈ bits, b ≤ 1) → (∀ x ∈ buf, x < 256) →
    ∀ x ∈ writeBits buf start bits, x < 256 := by
  induction bits with
  | nil => intro buf start _ hb; exact hb
  | cons b rest ih =>
    intro buf start hbits hb
    show ∀ x ∈ writeBits (orBit buf start b) (start + 1) rest, x < 256
    exact ih _ _ (fun c hc => hbits c (List.mem_cons_of_mem _ hc))
      (orBit_lt _ _ _ hb (hbits b (List.mem_cons_self _ _)))

theorem readBit_writeBits (bits : List Nat) : ∀ (buf : List Nat) (start j : Nat),
    start + bits.length ≤ 8 * buf.length →
    (∀ b ∈ bits, b ≤ 1) →
    (∀ t, start ≤ t → readBit buf t = 0) →
    readBit (writeBits buf start bits) j =
      if start ≤ j ∧ j < start + bits.length then bits.getD (j - start) 0
      else readBit buf j := by
  induction bits with
  | nil =>
    intro buf start j _ _ _
    rw [if_neg (by simp)]
    rfl
  | cons b rest ih =>
    intro buf start j hlen hbits hzero
    have hstart8 : start / 8 < buf.length := by
      rw [Nat.div_lt_iff_lt_mul (by norm_num)]
      simp only [List.length_cons] at hlen
      omega
    have hb1 : b ≤ 1 := hbits b (List.mem_cons_self _ _)
    have hbuf' : ∀ t, start + 1 ≤ t → readBit (orBit buf start b) t = 0 := by
      intro t ht
      rw [readBit_orBit _ _ _ _ hstart8 hb1, if_neg (by omega)]
      exact hzero t (by omega)
    have hlen' : start + 1 + rest.length ≤ 8 * (orBit buf start b).length := by
      rw [orBit_length]
      simp only [List.length_cons] at hlen
      omega
    show readBit (writeBits (orBit buf start b) (start + 1) rest) j = _
    rw [ih _ _ _ hlen' (fun c hc => hbits c (List.mem_cons_of_mem _ hc)) hbuf']
    by_cases hj : start + 1 ≤ j ∧ j < start + 1 + rest.length
    · rw [if_pos hj, if_pos (by simp only [List.length_cons]; omega)]
      have hidx : j - start = (j - (start + 1)) + 1 := by omega
      rw [hidx, List.getD_cons_succ]
    · rw [if_neg hj]
      by_cases hjs : j = start
      · subst hjs
        rw [readBit_orBit _ _ _ _ hstart8 hb1, if_pos rfl, hzero _ le_rfl,
          if_pos (by simp only [List.length_cons]; omega), Nat.sub_self,
          List.getD_cons_zero]
        simp
      · rw [readBit_orBit _ _ _ _ hstart8 hb1, if_neg hjs,
          if_neg (by simp only [List.length_cons]; omega)]

theorem readBit_replicate (n j : Nat) : readBit (List.replicate n 0) j = 0 := by
  unfold readBit
  have h0 : (List.replicate n 0).getD (j / 8) 0 = 0 := by
    rw [List.getD_eq_getElem?_getD, List.getElem?_replicate]
    split <;> rfl
  rw [h0]
  simp

theorem pack_length (n : Nat) (bits : List Nat) : (pack n bits).length = n := by
  unfold pack
  rw [writeBits_length, List.length_replicate]

theorem pack_lt (n : Nat) (bits : List Nat) (hb : ∀ b ∈ bits, b ≤ 1) :
    ∀ x ∈ pack n bits, x < 256 := by
  unfold pack
  refine writeBits_lt _ _ _ hb ?_
  intro x hx
  rw [List.eq_of_mem_replicate hx]
  norm_num

theorem readBit_pack (n : Nat) (bits : List Nat) (hlen : bits.length ≤ 8 * n)
    (hb : ∀ b ∈ bits, b ≤ 1) (j : Nat) :
    readBit (pack n bits) j = if j < bits.length then bits.getD j 0 else 0 := by
  unfold pack
  rw [readBit_writeBits _ _ _ _ (by rw [List.length_replicate]; omega) hb
    (fun t _ => readBit_replicate n t)]
  by_cases hj : j < bits.length
  · rw [if_pos ⟨Nat.zero_le j, by omega⟩, if_pos hj, Nat.sub_zero]
  · rw [if_neg (by omega), if_neg hj, readBit_replicate]

theorem readBit_cons_lt (x : Nat) (l : List Nat) (k : Nat) (hk : k < 8) :
    readBit (x :: l) k = (x >>> (7 - k)) &&& 1 := by
  unfold readBit
  rw [Nat.div_eq_of_lt hk, Nat.mod_eq_of_lt hk]
  rfl

theorem readBit_cons_testBit (x : Nat) (l : List Nat) (j : Nat) (hj : j < 8) :
    readBit (x :: l) j = (x.testBit (7 - j)).toNat := by
  rw [readBit_eq_testBit, Nat.div_eq_of_lt hj, Nat.mod_eq_of_lt hj]
  rfl

theorem readBit_cons_add (x : Nat) (l : List Nat) (k : Nat) :
    readBit (x :: l) (k + 8) = readBit l k := by
  unfold readBit
  rw [Nat.add_div_right _ (by norm_num), Nat.add_mod_right]
  rfl

theorem byte_eq_of_testBit (x y : Nat) (hx : x < 256) (hy : y < 256)
    (h : ∀ k, k < 8 → x.testBit k = y.testBit k) : x = y := by
  apply Nat.eq_of_testBit_eq
  intro i
  rcases Nat.lt_or_ge i 8 with hi | hi
  · exact h i hi
  · have h2 : (256 : Nat) ≤ 2 ^ i := by
      calc (256 : Nat) = 2 ^ 8 := by norm_num
        _ ≤ 2 ^ i := Nat.pow_le_pow_right (by norm_num) hi
    rw [Nat.testBit_lt_two_pow (lt_of_lt_of_le hx h2),
      Nat.testBit_lt_two_pow (lt_of_lt_of_le hy h2)]

theorem buf_ext (a : List Nat) : ∀ (b : List Nat), a.length = b.length →
    (∀ x ∈ a, x < 256) → (∀ x ∈ b, x < 256) →
    (∀ j, j < 8 * a.length → readBit a j = readBit b j) → a = b := by
  induction a with
  | nil =>
    intro b hlen _ _ _
    exact (List.length_eq_zero.mp hlen.symm).symm
  | cons x l ih =>
    intro b hlen ha hb h
    cases b with
    | nil => simp at hlen
    | cons y m =>
      have hxy : x = y := by
        apply byte_eq_of_testBit x y (ha x (List.mem_cons_self _ _))
          (hb y (List.mem_cons_self _ _))
        intro k hk
        have h7 : 7 - k < 8 := by omega
        have hr := h (7 - k) (by simp only [List.length_cons]; omega)
        rw [readBit_cons_testBit _ _ _ h7, readBit_cons_testBit _ _ _ h7] at hr
        have h77 : 7 - (7 - k) = k := by omega
        rw [h77] at hr
        cases hb1 : x.testBit k <;> cases hb2 : y.testBit k <;>
          rw [hb1, hb2] at hr <;> simp_all
      have htail : l = m := by
        apply ih m (by simpa using hlen) (fun z hz => ha z (List.mem_cons_of_mem _ hz))
          (fun z hz => hb z (List.mem_cons_of_mem _ hz))
        intro j hj
        have := h (j + 8) (by simp only [List.length_cons]; omega)
        rwa [readBit_cons_add, readBit_cons_add] at this
      rw [hxy, htail]

theorem byteBits_length (b : Nat) : (byteBits b).length = 8 := by
  simp [byteBits]

theorem byteBits_getD (b j : Nat) (hj : j < 8) :
    (byteBits b).getD j 0 = (b >>> (7 - j)) &&& 1 := by
  unfold byteBits
  rw [List.getD_eq_getElem?_getD, List.getElem?_map, List.getElem?_range hj]
  rfl

theorem bitList_length (x : List Nat) : (bitList x).length = 8 * x.length := by
  induction x with
  | nil => rfl
  | cons b rest ih =>
    show (byteBits b ++ bitList rest).length = _
    rw [List.length_append, byteBits_length, ih, List.length_cons]
    ring

theorem bitList_le_one (x : List Nat) : ∀ b ∈ bitList x, b ≤ 1 := by
  induction x with
  | nil => intro b hb; simp [bitList] at hb
  | cons c rest ih =>
    intro b hb
    rcases List.mem_append.mp hb with hmem | hmem
    · unfold byteBits at hmem
      obtain ⟨k, _, hk⟩ := List.mem_map.mp hmem
      rw [← hk, Nat.and_one_is_mod]
      omega
    · exact ih b hmem

theorem bitList_getD (x : List Nat) : ∀ j, j < 8 * x.length →
    (bitList x).getD j 0 = readBit x j := by
  induction x with
  | nil => intro j hj; simp at hj
  | cons b rest ih =>
    intro j hj
    rcases Nat.lt_or_ge j 8 with h8 | h8
    · show (byteBits b ++ bitList rest).getD j 0 = _
      rw [List.getD_append _ _ _ _ (by rw [byteBits_length]; omega),
        byteBits_getD _ _ h8, readBit_cons_lt _ _ _ h8]
    · show (byteBits b ++ bitList rest).getD j 0 = _
      rw [List.getD_append_right _ _ _ _ (by rw [byteBits_length]; omega), byteBits_length]
      have hsplit : j = (j - 8) + 8 := by omega
      rw [hsplit, readBit_cons_add, Nat.add_sub_cancel]
      exact ih (j - 8) (by simp only [List.length_cons] at hj; omega)

theorem range_map_readBit (x : List Nat) :
    (List.range (x.length * 8)).map (readBit x) = bitList x := by
  apply List.ext_getElem
  · rw [List.length_map, List.length_range, bitList_length]
    ring
  · intro i h1 h2
    rw [List.getElem_map, List.getElem_range, ← List.getD_eq_getElem (bitList x) 0 h2]
    exact (bitList_getD x i (by rwa [bitList_length] at h2)).symm

/-! ## The ratio-2 encoders as bit-stream packers -/

theorem xor_one_le (s : Nat) (h : s ≤ 1) : s ^^^ 1 ≤ 1 := by
  interval_cases s <;> decide

theorem fm0_foldl (bits : List Nat) : ∀ (s k : Nat) (buf : List Nat),
    bits.foldl fm0Step (s, k, buf) =
      (fm0FinalState s bits, k + 2 * bits.length, writeBits buf k (fm0Bits s bits)) := by
  induction bits with
  | nil => intro s k buf; simp [fm0FinalState, fm0Bits, writeBits]
  | cons b rest ih =>
    intro s k buf
    by_cases hb : b = 1 <;>
      simp only [List.foldl_cons, fm0Step, hb, eq_self_iff_true, if_true, if_false, ite_true, ite_false,
        reduceIte, ih, fm0Bits, fm0FinalState, writeBits, List.length_cons,
        Prod.mk.injEq, true_and, and_true] <;>
      omega

theorem fm1_foldl (bits : List Nat) : ∀ (s k : Nat) (buf : List Nat),
    bits.foldl fm1Step (s, k, buf) =
      (fm1FinalState s bits, k + 2 * bits.length, writeBits buf k (fm1Bits s bits)) := by
  induction bits with
  | nil => intro s k buf; simp [fm1FinalState, fm1Bits, writeBits]
  | cons b rest ih =>
    intro s k buf
    by_cases hb : b = 1 <;>
      simp only [List.foldl_cons, fm1Step, hb, eq_self_iff_true, if_true, if_false, ite_true, ite_false,
        reduceIte, ih, fm1Bits, fm1FinalState, writeBits, List.length_cons,
        Prod.mk.injEq, true_and, and_true] <;>
      omega

theorem man_foldl (bits : List Nat) : ∀ (k : Nat) (buf : List Nat),
    bits.foldl manStep (k, buf) = (k + 2 * bits.length, writeBits buf k (manBits bits)) := by
  induction bits with
  | nil => intro k buf; simp [manBits, writeBits]
  | cons b rest ih =>
    intro k buf
    by_cases hb : b = 1 <;>
      simp only [List.foldl_cons, manStep, hb, eq_self_iff_true, if_true, if_false, ite_true, ite_false,
        reduceIte, ih, manBits, writeBits, List.length_cons,
        Prod.mk.injEq, true_and, and_true] <;>
      omega

theorem fm0Encode_eq (x : List Nat) :
    fm0Encode x = pack (2 * x.length) (fm0Bits 1 (bitList x)) := by
  unfold fm0Encode pack
  show ((List.range (x.length * 8)).foldl (fun st i => fm0Step st (readBit x i))
      (1, 0, List.replicate ((x.length * 8 * 2 + 7) / 8) 0)).2.2 = _
  rw [show (List.range (x.length * 8)).foldl (fun st i => fm0Step st (readBit x i))
        (1, 0, List.replicate ((x.length * 8 * 2 + 7) / 8) 0) =
      ((List.range (x.length * 8)).map (readBit x)).foldl fm0Step
        (1, 0, List.replicate ((x.length * 8 * 2 + 7) / 8) 0) from
    (List.foldl_map _ _ _ _).symm]
  rw [range_map_readBit, fm0_foldl]
  have h8 : (x.length * 8 * 2 + 7) / 8 = 2 * x.length := by omega
  rw [h8]

theorem fm1Encode_eq (x : List Nat) :
    fm1Encode x = pack (2 * x.length) (fm1Bits 1 (bitList x)) := by
  unfold fm1Encode pack
  show ((List.range (x.length * 8)).foldl (fun st i => fm1Step st (readBit x i))
      (1, 0, List.replicate ((x.length * 8 * 2 + 7) / 8) 0)).2.2 = _
  rw [show (List.range (x.length * 8)).foldl (fun st i => fm1Step st (readBit x i))
        (1, 0, List.replicate ((x.length * 8 * 2 + 7) / 8) 0) =
      ((List.range (x.length * 8)).map (readBit x)).foldl fm1Step
        (1, 0, List.replicate ((x.length * 8 * 2 + 7) / 8) 0) from
    (List.foldl_map _ _ _ _).symm]
  rw [range_map_readBit, fm1_foldl]
  have h8 : (x.length * 8 * 2 + 7) / 8 = 2 * x.length := by omega
  rw [h8]

theorem manchesterEncode_eq (x : List Nat) :
    manchesterEncode x = pack (2 * x.length) (manBits (bitList x)) := by
  unfold manchesterEncode pack
  show ((List.range (x.length * 8)).foldl (fun st i => manStep st (readBit x i))
      (0, List.replicate ((x.length * 8 * 2 + 7) / 8) 0)).2 = _
  rw [show (List.range (x.length * 8)).foldl (fun st i => manStep st (readBit x i))
        (0, List.replicate ((x.length * 8 * 2 + 7) / 8) 0) =
      ((List.range (x.length * 8)).map (readBit x)).foldl manStep
        (0, List.replicate ((x.length * 8 * 2 + 7) / 8) 0) from
    (List.foldl_map _ _ _ _).symm]
  rw [range_map_readBit, man_foldl]
  have h8 : (x.length * 8 * 2 + 7) / 8 = 2 * x.length := by omega
  rw [h8]

theorem fm0Bits_length (bits : List Nat) : ∀ s, (fm0Bits s bits).length = 2 * bits.length := by
  induction bits with
  | nil => intro s; rfl
  | cons b rest ih =>
    intro s
    by_cases hb : b = 1 <;> simp [fm0Bits, hb, ih] <;> ring

theorem fm1Bits_length (bits : List Nat) : ∀ s, (fm1Bits s bits).length = 2 * bits.length := by
  induction bits with
  | nil => intro s; rfl
  | cons b rest ih =>
    intro s
    by_cases hb : b = 1 <;> simp [fm1Bits, hb, ih] <;> ring

theorem manBits_length (bits : List Nat) : (manBits bits).length = 2 * bits.length := by
  induction bits with
  | nil => rfl
  | cons b rest ih =>
    by_cases hb : b = 1 <;> simp [manBits, hb, ih] <;> ring

theorem fm0Bits_le_one (bits : List Nat) : ∀ s, s ≤ 1 → ∀ b ∈ fm0Bits s bits, b ≤ 1 := by
  induction bits with
  | nil => intro s _ b hb; simp [fm0Bits] at hb
  | cons c rest ih =>
    intro s hs b hb
    by_cases hc : c = 1
    · rw [fm0Bits, if_pos hc] at hb
      rcases List.mem_cons.mp hb with h | hb2
      · exact h ▸ xor_one_le s hs
      rcases List.mem_cons.mp hb2 with h | h
      · exact h ▸ hs
      · exact ih s hs b h
    · rw [fm0Bits, if_neg hc] at hb
      rcases List.mem_cons.mp hb with h | hb2
      · exact h ▸ xor_one_le s hs
      rcases List.mem_cons.mp hb2 with h | h
      · exact h ▸ xor_one_le s hs
      · exact ih (s ^^^ 1) (xor_one_le s hs) b h

theorem fm1Bits_le_one (bits : List Nat) : ∀ s, s ≤ 1 → ∀ b ∈ fm1Bits s bits, b ≤ 1 := by
  induction bits with
  | nil => intro s _ b hb; simp [fm1Bits] at hb
  | cons c rest ih =>
    intro s hs b hb
    by_cases hc : c = 1
    · rw [fm1Bits, if_pos hc] at hb
      rcases List.mem_cons.mp hb with h | hb2
      · exact h ▸ xor_one_le s hs
      rcases List.mem_cons.mp hb2 with h | h
      · exact h ▸ xor_one_le s hs
      · exact ih (s ^^^ 1) (xor_one_le s hs) b h
    · rw [fm1Bits, if_neg hc] at hb
      rcases List.mem_cons.mp hb with h | hb2
      · exact h ▸ hs
      rcases List.mem_cons.mp hb2 with h | h
      · exact h ▸ hs
      · exact ih s hs b h

theorem manBits_le_one (bits : List Nat) : ∀ b ∈ manBits bits, b ≤ 1 := by
  induction bits with
  | nil => intro b hb; simp [manBits] at hb
  | cons c rest ih =>
    intro b hb
    by_cases hc : c = 1
    · rw [manBits, if_pos hc] at hb
      rcases List.mem_cons.mp hb with h | hb2
      · exact h ▸ Nat.zero_le 1
      rcases List.mem_cons.mp hb2 with h | h
      · exact h ▸ le_rfl
      · exact ih b h
    · rw [manBits, if_neg hc] at hb
      rcases List.mem_cons.mp hb with h | hb2
      · exact h ▸ le_rfl
      rcases List.mem_cons.mp hb2 with h | h
      · exact h ▸ Nat.zero_le 1
      · exact ih b h

theorem readBit_fm0Encode (x : List Nat) (j : Nat) :
    readBit (fm0Encode x) j =
      if j < 16 * x.length then (fm0Bits 1 (bitList x)).getD j 0 else 0 := by
  rw [fm0Encode_eq, readBit_pack _ _ (by rw [fm0Bits_length, bitList_length]; omega)
    (fm0Bits_le_one _ 1 (by norm_num)), fm0Bits_length, bitList_length]
  have h16 : 2 * (8 * x.length) = 16 * x.length := by ring
  rw [h16]

theorem readBit_fm1Encode (x : List Nat) (j : Nat) :
    readBit (fm1Encode x) j =
      if j < 16 * x.length then (fm1Bits 1 (bitList x)).getD j 0 else 0 := by
  rw [fm1Encode_eq, readBit_pack _ _ (by rw [fm1Bits_length, bitList_length]; omega)
    (fm1Bits_le_one _ 1 (by norm_num)), fm1Bits_length, bitList_length]
  have h16 : 2 * (8 * x.length) = 16 * x.length := by ring
  rw [h16]

theorem readBit_manchesterEncode (x : List Nat) (j : Nat) :
    readBit (manchesterEncode x) j =
      if j < 16 * x.length then (manBits (bitList x)).getD j 0 else 0 := by
  rw [manchesterEncode_eq, readBit_pack _ _ (by rw [manBits_length, bitList_length]; omega)
    (manBits_le_one _), manBits_length, bitList_length]
  have h16 : 2 * (8 * x.length) = 16 * x.length := by ring
  rw [h16]

/-! ## The checked bit accesses of the decoders -/

theorem readBitChk_eq (buf : List Nat) (i : Nat) (h : i / 8 < buf.length) :
    readBitChk buf i = some (readBit buf i) := by
  unfold readBitChk readBit
  rw [List.get?_eq_getElem?, List.getElem?_eq_getElem h, List.getD_eq_getElem?_getD,
    List.getElem?_eq_getElem h]
  rfl

theorem readBitChk_none (buf : List Nat) (i : Nat) (h : buf.length ≤ i / 8) :
    readBitChk buf i = none := by
  unfold readBitChk
  rw [List.get?_eq_getElem?, List.getElem?_eq_none h]
  rfl

theorem orBitChk_eq (buf : List Nat) (i v : Nat) (h : i / 8 < buf.length) :
    orBitChk buf i v = some (orBit buf i v) := by
  unfold orBitChk orBit
  rw [List.get?_eq_getElem?, List.getElem?_eq_getElem h, List.getD_eq_getElem?_getD,
    List.getElem?_eq_getElem h]
  rfl

theorem orBitChk_none (buf : List Nat) (i v : Nat) (h : buf.length ≤ i / 8) :
    orBitChk buf i v = none := by
  unfold orBitChk
  rw [List.get?_eq_getElem?, List.getElem?_eq_none h]
  rfl

theorem clearBitChk_none (buf : List Nat) (i : Nat) (h : buf.length ≤ i / 8) :
    clearBitChk buf i = none := by
  unfold clearBitChk
  rw [List.get?_eq_getElem?, List.getElem?_eq_none h]
  rfl

theorem set_getElem_eq (l : List Nat) (n : Nat) (h : n < l.length) :
    l.set n (l.get ⟨n, h⟩) = l := by
  apply List.ext_getElem (by rw [List.length_set])
  intro i h1 h2
  rw [List.getElem_set]
  split
  · next heq =>
    subst heq
    rfl
  · rfl

theorem and_mask_eq_self (b k : Nat) (hb : b < 256) (_hk : k < 8)
    (hz : b.testBit k = false) : b &&& (255 ^^^ (1 <<< k)) = b := by
  apply Nat.eq_of_testBit_eq
  intro j
  rw [Nat.testBit_and, Nat.testBit_xor, Nat.one_shiftLeft, Nat.testBit_two_pow]
  have h255 : (255 : Nat).testBit j = decide (j < 8) := by
    have h8 : (255 : Nat) = 2 ^ 8 - 1 := by norm_num
    rw [h8, Nat.testBit_two_pow_sub_one]
  rw [h255]
  by_cases hj8 : j < 8
  · by_cases hkj : k = j
    · subst hkj
      simp [hz, hj8]
    · simp [hj8, hkj]
  · have hbj : b.testBit j = false := by
      apply Nat.testBit_lt_two_pow
      calc b < 256 := hb
        _ = 2 ^ 8 := by norm_num
        _ ≤ 2 ^ j := Nat.pow_le_pow_right (by norm_num) (by omega)
    simp [hbj]

theorem orBit_zero (buf : List Nat) (i : Nat) (h : i / 8 < buf.length) :
    orBit buf i 0 = buf := by
  unfold orBit
  have hor : buf.getD (i / 8) 0 ||| 0 <<< (7 - i % 8) = buf.getD (i / 8) 0 := by
    simp
  rw [hor, List.getD_eq_getElem?_getD, List.getElem?_eq_getElem h]
  exact set_getElem_eq buf (i / 8) h

theorem clearBitChk_eq_self (buf : List Nat) (i : Nat) (h : i / 8 < buf.length)
    (hlt : ∀ x ∈ buf, x < 256) (hz : readBit buf i = 0) :
    clearBitChk buf i = some buf := by
  unfold clearBitChk
  rw [List.get?_eq_getElem?, List.getElem?_eq_getElem h]
  have htb : buf[i / 8].testBit (7 - i % 8) = false := by
    rw [readBit_eq_testBit, List.getD_eq_getElem?_getD, List.getElem?_eq_getElem h] at hz
    simp only [Option.getD_some] at hz
    cases hb : (buf[i / 8]).testBit (7 - i % 8)
    · rfl
    · rw [hb] at hz
      simp at hz
  have hmask : buf[i / 8] &&& (255 ^^^ (1 <<< (7 - i % 8))) = buf[i / 8] :=
    and_mask_eq_self _ _ (hlt _ (List.getElem_mem h)) (by omega) htb
  show some (buf.set (i / 8) (buf[i / 8] &&& (255 ^^^ (1 <<< (7 - i % 8))))) = some buf
  rw [hmask]
  rw [show buf[i / 8] = buf.get ⟨i / 8, h⟩ from rfl]
  rw [set_getElem_eq buf (i / 8) h]

/-! ## The FM0 decoding loop -/

theorem fm0DecodeGo_step (encoded : List Nat) (k c : Nat) (decoded : List Nat)
    (a b : Nat) (h1 : readBitChk encoded (2 * k) = some a)
    (h2 : readBitChk encoded (2 * k + 1) = some b) :
    fm0DecodeGo encoded k (c + 1) decoded =
      if a = b then
        match clearBitChk decoded k with
        | some d => fm0DecodeGo encoded (k + 1) c d
        | none => .error .outOfBounds
      else
        match orBitChk decoded k 1 with
        | some d => fm0DecodeGo encoded (k + 1) c d
        | none => .error .outOfBounds := by
  rw [fm0DecodeGo, h1, h2]

theorem fm0DecodeGo_ok (cells : Nat) : ∀ (encoded : List Nat) (k : Nat) (decoded : List Nat),
    2 * (k + cells) ≤ 8 * encoded.length →
    k + cells ≤ 8 * decoded.length →
    (∀ x ∈ decoded, x < 256) →
    (∀ t, k ≤ t → readBit decoded t = 0) →
    fm0DecodeGo encoded k cells decoded =
      .ok (writeBits decoded k (fm0CellBits encoded k cells)) := by
  induction cells with
  | zero =>
    intro encoded k decoded _ _ _ _
    rfl
  | succ c ih =>
    intro encoded k decoded hr hw hlt hz
    have hkdiv : k / 8 < decoded.length := by
      rw [Nat.div_lt_iff_lt_mul (by norm_num)]
      omega
    have hr1 : 2 * k / 8 < encoded.length := by
      rw [Nat.div_lt_iff_lt_mul (by norm_num)]
      omega
    have hr2 : (2 * k + 1) / 8 < encoded.length := by
      rw [Nat.div_lt_iff_lt_mul (by norm_num)]
      omega
    rw [fm0DecodeGo_step encoded k c decoded _ _ (readBitChk_eq _ _ hr1)
      (readBitChk_eq _ _ hr2)]
    by_cases hfs : readBit encoded (2 * k) = readBit encoded (2 * k + 1)
    · rw [if_pos hfs, clearBitChk_eq_self decoded k hkdiv hlt (hz k le_rfl)]
      show fm0DecodeGo encoded (k + 1) c decoded = _
      rw [ih encoded (k + 1) decoded (by omega) (by omega) hlt
        (fun t ht => hz t (by omega))]
      rw [fm0CellBits, if_pos (show cellFst encoded k = cellSnd encoded k from hfs)]
      show _ = Except.ok (writeBits (orBit decoded k 0) (k + 1) (fm0CellBits encoded (k + 1) c))
      rw [orBit_zero decoded k hkdiv]
    · rw [if_neg hfs, orBitChk_eq _ _ _ hkdiv]
      show fm0DecodeGo encoded (k + 1) c (orBit decoded k 1) = _
      rw [ih encoded (k + 1) (orBit decoded k 1)
        (by omega) (by rw [orBit_length]; omega)
        (orBit_lt _ _ _ hlt le_rfl)
        (fun t ht => by
          rw [readBit_orBit _ _ _ _ hkdiv le_rfl, if_neg (by omega)]
          exact hz t (by omega))]
      rw [fm0CellBits, if_neg (show ¬cellFst encoded k = cellSnd encoded k from hfs)]
      rfl

theorem fm0DecodeGo_oob (cells : Nat) : ∀ (encoded : List Nat) (k : Nat) (decoded : List Nat),
    2 * (k + cells) ≤ 8 * encoded.length →
    k ≤ 8 * decoded.length →
    8 * decoded.length < k + cells →
    (∀ x ∈ decoded, x < 256) →
    (∀ t, k ≤ t → readBit decoded t = 0) →
    fm0DecodeGo encoded k cells decoded = .error .outOfBounds := by
  induction cells with
  | zero =>
    intro encoded k decoded _ hw1 hw2 _ _
    omega
  | succ c ih =>
    intro encoded k decoded hr hw1 hw2 hlt hz
    have hr1 : 2 * k / 8 < encoded.length := by
      rw [Nat.div_lt_iff_lt_mul (by norm_num)]
      omega
    have hr2 : (2 * k + 1) / 8 < encoded.length := by
      rw [Nat.div_lt_iff_lt_mul (by norm_num)]
      omega
    rw [fm0DecodeGo_step encoded k c decoded _ _ (readBitChk_eq _ _ hr1)
      (readBitChk_eq _ _ hr2)]
    by_cases hkcap : k < 8 * decoded.length
    · have hkdiv : k / 8 < decoded.length := by
        rw [Nat.div_lt_iff_lt_mul (by norm_num)]
        omega
      by_cases hfs : readBit encoded (2 * k) = readBit encoded (2 * k + 1)
      · rw [if_pos hfs, clearBitChk_eq_self decoded k hkdiv hlt (hz k le_rfl)]
        show fm0DecodeGo encoded (k + 1) c decoded = _
        exact ih encoded (k + 1) decoded (by omega) (by omega) (by omega) hlt
          (fun t ht => hz t (by omega))
      · rw [if_neg hfs, orBitChk_eq _ _ _ hkdiv]
        show fm0DecodeGo encoded (k + 1) c (orBit decoded k 1) = _
        exact ih encoded (k + 1) (orBit decoded k 1)
          (by omega) (by rw [orBit_length]; omega) (by rw [orBit_length]; omega)
          (orBit_lt _ _ _ hlt le_rfl)
          (fun t ht => by
            rw [readBit_orBit _ _ _ _ hkdiv le_rfl, if_neg (by omega)]
            exact hz t (by omega))
    · have hkdiv : decoded.length ≤ k / 8 := by
        rw [Nat.le_div_iff_mul_le (by norm_num)]
        omega
      by_cases hfs : readBit encoded (2 * k) = readBit encoded (2 * k + 1)
      · rw [if_pos hfs, clearBitChk_none decoded k hkdiv]
      · rw [if_neg hfs, orBitChk_none _ _ _ hkdiv]

/-! ## The FM1 decoding loop -/

theorem fm1DecodeGo_step (encoded : List Nat) (s k c : Nat) (decoded : List Nat)
    (a b : Nat) (h1 : readBitChk encoded (2 * k) = some a)
    (h2 : readBitChk encoded (2 * k + 1) = some b) :
    fm1DecodeGo encoded s k (c + 1) decoded =
      if a ≠ b then .error (.decodingError (2 * k))
      else if a ≠ s then
        match orBitChk decoded k 1 with
        | some d => fm1DecodeGo encoded b (k + 1) c d
        | none => .error .outOfBounds
      else
        match clearBitChk decoded k with
        | some d => fm1DecodeGo encoded b (k + 1) c d
        | none => .error .outOfBounds := by
  rw [fm1DecodeGo, h1, h2]

theorem fm1DecodeGo_spec (cells : Nat) : ∀ (encoded : List Nat) (s k : Nat)
    (decoded : List Nat),
    2 * (k + cells) ≤ 8 * encoded.length →
    k + cells ≤ 8 * decoded.length →
    (∀ x ∈ decoded, x < 256) →
    (∀ t, k ≤ t → readBit decoded t = 0) →
    fm1DecodeGo encoded s k cells decoded =
      match firstDiffFrom encoded k cells with
      | some m => .error (.decodingError (2 * m))
      | none => .ok (writeBits decoded k (fm1CellBits encoded s k cells)) := by
  induction cells with
  | zero =>
    intro encoded s k decoded _ _ _ _
    rfl
  | succ c ih =>
    intro encoded s k decoded hr hw hlt hz
    have hkdiv : k / 8 < decoded.length := by
      rw [Nat.div_lt_iff_lt_mul (by norm_num)]
      omega
    have hr1 : 2 * k / 8 < encoded.length := by
      rw [Nat.div_lt_iff_lt_mul (by norm_num)]
      omega
    have hr2 : (2 * k + 1) / 8 < encoded.length := by
      rw [Nat.div_lt_iff_lt_mul (by norm_num)]
      omega
    rw [fm1DecodeGo_step encoded s k c decoded _ _ (readBitChk_eq _ _ hr1)
      (readBitChk_eq _ _ hr2)]
    by_cases hfs : readBit encoded (2 * k) ≠ readBit encoded (2 * k + 1)
    · rw [if_pos hfs, firstDiffFrom,
        if_pos (show cellFst encoded k ≠ cellSnd encoded k from hfs)]
    · rw [if_neg hfs, firstDiffFrom,
        if_neg (show ¬cellFst encoded k ≠ cellSnd encoded k from hfs)]
      by_cases hls : readBit encoded (2 * k) ≠ s
      · rw [if_pos hls, orBitChk_eq _ _ _ hkdiv]
        show fm1DecodeGo encoded (readBit encoded (2 * k + 1)) (k + 1) c
          (orBit decoded k 1) = _
        rw [ih encoded _ (k + 1) (orBit decoded k 1) (by omega)
          (by rw [orBit_length]; omega) (orBit_lt _ _ _ hlt le_rfl)
          (fun t ht => by
            rw [readBit_orBit _ _ _ _ hkdiv le_rfl, if_neg (by omega)]
            exact hz t (by omega))]
        cases hfd : firstDiffFrom encoded (k + 1) c with
        | some m => rfl
        | none =>
          rw [fm1CellBits, if_pos (show cellFst encoded k ≠ s from hls)]
          rfl
      · rw [if_neg hls, clearBitChk_eq_self decoded k hkdiv hlt (hz k le_rfl)]
        show fm1DecodeGo encoded (readBit encoded (2 * k + 1)) (k + 1) c decoded = _
        rw [ih encoded _ (k + 1) decoded (by omega) (by omega) hlt
          (fun t ht => hz t (by omega))]
        cases hfd : firstDiffFrom encoded (k + 1) c with
        | some m => rfl
        | none =>
          rw [fm1CellBits, if_neg (show ¬cellFst encoded k ≠ s from hls)]
          show _ = Except.ok (writeBits (orBit decoded k 0) (k + 1)
            (fm1CellBits encoded (cellSnd encoded k) (k + 1) c))
          rw [orBit_zero decoded k hkdiv]
          rfl

theorem fm1DecodeGo_not_ok (cells : Nat) : ∀ (encoded : List Nat) (s k : Nat)
    (decoded : List Nat),
    2 * (k + cells) ≤ 8 * encoded.length →
    k ≤ 8 * decoded.length →
    8 * decoded.length < k + cells →
    (∀ x ∈ decoded, x < 256) →
    (∀ t, k ≤ t → readBit decoded t = 0) →
    ∀ out, fm1DecodeGo encoded s k cells decoded ≠ .ok out := by
  induction cells with
  | zero =>
    intro encoded s k decoded _ h1 h2 _ _ out
    omega
  | succ c ih =>
    intro encoded s k decoded hr hw1 hw2 hlt hz out
    have hr1 : 2 * k / 8 < encoded.length := by
      rw [Nat.div_lt_iff_lt_mul (by norm_num)]
      omega
    have hr2 : (2 * k + 1) / 8 < encoded.length := by
      rw [Nat.div_lt_iff_lt_mul (by norm_num)]
      omega
    rw [fm1DecodeGo_step encoded s k c decoded _ _ (readBitChk_eq _ _ hr1)
      (readBitChk_eq _ _ hr2)]
    by_cases hfs : readBit encoded (2 * k) ≠ readBit encoded (2 * k + 1)
    · rw [if_pos hfs]
      simp
    · rw [if_neg hfs]
      by_cases hkcap : k < 8 * decoded.length
      · have hkdiv : k / 8 < decoded.length := by
          rw [Nat.div_lt_iff_lt_mul (by norm_num)]
          omega
        by_cases hls : readBit encoded (2 * k) ≠ s
        · rw [if_pos hls, orBitChk_eq _ _ _ hkdiv]
          show fm1DecodeGo encoded (readBit encoded (2 * k + 1)) (k + 1) c
            (orBit decoded k 1) ≠ _
          exact ih encoded _ (k + 1) (orBit decoded k 1) (by omega)
            (by rw [orBit_length]; omega) (by rw [orBit_length]; omega)
            (orBit_lt _ _ _ hlt le_rfl)
            (fun t ht => by
              rw [readBit_orBit _ _ _ _ hkdiv le_rfl, if_neg (by omega)]
              exact hz t (by omega)) out
        · rw [if_neg hls, clearBitChk_eq_self decoded k hkdiv hlt (hz k le_rfl)]
          show fm1DecodeGo encoded (readBit encoded (2 * k + 1)) (k + 1) c decoded ≠ _
          exact ih encoded _ (k + 1) decoded (by omega) (by omega) (by omega) hlt
            (fun t ht => hz t (by omega)) out
      · have hkdiv : decoded.length ≤ k / 8 := by
          rw [Nat.le_div_iff_mul_le (by norm_num)]
          omega
        by_cases hls : readBit encoded (2 * k) ≠ s
        · rw [if_pos hls, orBitChk_none _ _ _ hkdiv]
          simp
        · rw [if_neg hls, clearBitChk_none _ _ hkdiv]
          simp

/-! ## The Manchester decoding loop -/

theorem manchesterDecodeGo_step (encoded : List Nat) (k c : Nat) (decoded : List Nat)
    (a b : Nat) (h1 : readBitChk encoded (2 * k) = some a)
    (h2 : readBitChk encoded (2 * k + 1) = some b) :
    manchesterDecodeGo encoded k (c + 1) decoded =
      if a = 0 ∧ b = 1 then
        match orBitChk decoded k 1 with
        | some d => manchesterDecodeGo encoded (k + 1) c d
        | none => .error .outOfBounds
      else if a = 1 ∧ b = 0 then
        match clearBitChk decoded k with
        | some d => manchesterDecodeGo encoded (k + 1) c d
        | none => .error .outOfBounds
      else .error (.decodingError (2 * k)) := by
  rw [manchesterDecodeGo, h1, h2]

theorem manchesterDecodeGo_spec (cells : Nat) : ∀ (encoded : List Nat) (k : Nat)
    (decoded : List Nat),
    2 * (k + cells) ≤ 8 * encoded.length →
    k + cells ≤ 8 * decoded.length →
    (∀ x ∈ decoded, x < 256) →
    (∀ t, k ≤ t → readBit decoded t = 0) →
    manchesterDecodeGo encoded k cells decoded =
      match firstEqFrom encoded k cells with
      | some m => .error (.decodingError (2 * m))
      | none => .ok (writeBits decoded k (manCellBits encoded k cells)) := by
  induction cells with
  | zero =>
    intro encoded k decoded _ _ _ _
    rfl
  | succ c ih =>
    intro encoded k decoded hr hw hlt hz
    have hkdiv : k / 8 < decoded.length := by
      rw [Nat.div_lt_iff_lt_mul (by norm_num)]
      omega
    have hr1 : 2 * k / 8 < encoded.length := by
      rw [Nat.div_lt_iff_lt_mul (by norm_num)]
      omega
    have hr2 : (2 * k + 1) / 8 < encoded.length := by
      rw [Nat.div_lt_iff_lt_mul (by norm_num)]
      omega
    rw [manchesterDecodeGo_step encoded k c decoded _ _ (readBitChk_eq _ _ hr1)
      (readBitChk_eq _ _ hr2)]
    by_cases h01 : readBit encoded (2 * k) = 0 ∧ readBit encoded (2 * k + 1) = 1
    · rw [if_pos h01, orBitChk_eq _ _ _ hkdiv, firstEqFrom,
        if_neg (show ¬cellFst encoded k = cellSnd encoded k from by
          show ¬readBit encoded (2 * k) = readBit encoded (2 * k + 1)
          rw [h01.1, h01.2]
          norm_num)]
      show manchesterDecodeGo encoded (k + 1) c (orBit decoded k 1) = _
      rw [ih encoded (k + 1) (orBit decoded k 1) (by omega)
        (by rw [orBit_length]; omega) (orBit_lt _ _ _ hlt le_rfl)
        (fun t ht => by
          rw [readBit_orBit _ _ _ _ hkdiv le_rfl, if_neg (by omega)]
          exact hz t (by omega))]
      cases hfd : firstEqFrom encoded (k + 1) c with
      | some m => rfl
      | none =>
        rw [manCellBits, if_pos (show cellFst encoded k = 0 ∧ cellSnd encoded k = 1
          from h01)]
        rfl
    · rw [if_neg h01]
      by_cases h10 : readBit encoded (2 * k) = 1 ∧ readBit encoded (2 * k + 1) = 0
      · rw [if_pos h10, clearBitChk_eq_self decoded k hkdiv hlt (hz k le_rfl),
          firstEqFrom,
          if_neg (show ¬cellFst encoded k = cellSnd encoded k from by
            show ¬readBit encoded (2 * k) = readBit encoded (2 * k + 1)
            rw [h10.1, h10.2]
            norm_num)]
        show manchesterDecodeGo encoded (k + 1) c decoded = _
        rw [ih encoded (k + 1) decoded (by omega) (by omega) hlt
          (fun t ht => hz t (by omega))]
        cases hfd : firstEqFrom encoded (k + 1) c with
        | some m => rfl
        | none =>
          rw [manCellBits, if_neg (show ¬(cellFst encoded k = 0 ∧ cellSnd encoded k = 1)
            from by
              show ¬(readBit encoded (2 * k) = 0 ∧ readBit encoded (2 * k + 1) = 1)
              rw [h10.1, h10.2]
              norm_num)]
          show _ = Except.ok (writeBits (orBit decoded k 0) (k + 1)
            (manCellBits encoded (k + 1) c))
          rw [orBit_zero decoded k hkdiv]
      · have heq : readBit encoded (2 * k) = readBit encoded (2 * k + 1) := by
          have ha := readBit_le_one encoded (2 * k)
          have hb := readBit_le_one encoded (2 * k + 1)
          omega
        rw [if_neg h10, firstEqFrom,
          if_pos (show cellFst encoded k = cellSnd encoded k from heq)]

theorem manchesterDecodeGo_not_ok (cells : Nat) : ∀ (encoded : List Nat) (k : Nat)
    (decoded : List Nat),
    2 * (k + cells) ≤ 8 * encoded.length →
    k ≤ 8 * decoded.length →
    8 * decoded.length < k + cells →
    (∀ x ∈ decoded, x < 256) →
    (∀ t, k ≤ t → readBit decoded t = 0) →
    ∀ out, manchesterDecodeGo encoded k cells decoded ≠ .ok out := by
  induction cells with
  | zero =>
    intro encoded k decoded _ h1 h2 _ _ out
    omega
  | succ c ih =>
    intro encoded k decoded hr hw1 hw2 hlt hz out
    have hr1 : 2 * k / 8 < encoded.length := by
      rw [Nat.div_lt_iff_lt_mul (by norm_num)]
      omega
    have hr2 : (2 * k + 1) / 8 < encoded.length := by
      rw [Nat.div_lt_iff_lt_mul (by norm_num)]
      omega
    rw [manchesterDecodeGo_step encoded k c decoded _ _ (readBitChk_eq _ _ hr1)
      (readBitChk_eq _ _ hr2)]
    by_cases hkcap : k < 8 * decoded.length
    · have hkdiv : k / 8 < decoded.length := by
        rw [Nat.div_lt_iff_lt_mul (by norm_num)]
        omega
      by_cases h01 : readBit encoded (2 * k) = 0 ∧ readBit encoded (2 * k + 1) = 1
      · rw [if_pos h01, orBitChk_eq _ _ _ hkdiv]
        show manchesterDecodeGo encoded (k + 1) c (orBit decoded k 1) ≠ _
        exact ih encoded (k + 1) (orBit decoded k 1) (by omega)
          (by rw [orBit_length]; omega) (by rw [orBit_length]; omega)
          (orBit_lt _ _ _ hlt le_rfl)
          (fun t ht => by
            rw [readBit_orBit _ _ _ _ hkdiv le_rfl, if_neg (by omega)]
            exact hz t (by omega)) out
      · rw [if_neg h01]
        by_cases h10 : readBit encoded (2 * k) = 1 ∧ readBit encoded (2 * k + 1) = 0
        · rw [if_pos h10, clearBitChk_eq_self decoded k hkdiv hlt (hz k le_rfl)]
          show manchesterDecodeGo encoded (k + 1) c decoded ≠ _
          exact ih encoded (k + 1) decoded (by omega) (by omega) (by omega) hlt
            (fun t ht => hz t (by omega)) out
        · rw [if_neg h10]
          simp
    · have hkdiv : decoded.length ≤ k / 8 := by
        rw [Nat.le_div_iff_mul_le (by norm_num)]
        omega
      by_cases h01 : readBit encoded (2 * k) = 0 ∧ readBit encoded (2 * k + 1) = 1
      · rw [if_pos h01, orBitChk_none _ _ _ hkdiv]
        simp
      · rw [if_neg h01]
        by_cases h10 : readBit encoded (2 * k) = 1 ∧ readBit encoded (2 * k + 1) = 0
        · rw [if_pos h10, clearBitChk_none _ _ hkdiv]
          simp
        · rw [if_neg h10]
          simp


/-! ## Cell structure of the encoded bit streams -/

theorem xor_one_ne_of_le (s : Nat) (hs : s ≤ 1) : s ^^^ 1 ≠ s := by
  interval_cases s <;> decide

theorem getD_le_one (l : List Nat) (n : Nat) (h : ∀ b ∈ l, b ≤ 1) : l.getD n 0 ≤ 1 := by
  rcases Nat.lt_or_ge n l.length with hn | hn
  · rw [List.getD_eq_getElem?_getD, List.getElem?_eq_getElem hn]
    exact h _ (List.getElem_mem hn)
  · rw [List.getD_eq_getElem?_getD, List.getElem?_eq_none hn]
    norm_num

theorem getD_cons_cons (a b : Nat) (l : List Nat) (n : Nat) :
    (a :: b :: l).getD (n + 2) 0 = l.getD n 0 := by
  rw [show n + 2 = (n + 1) + 1 from rfl, List.getD_cons_succ, List.getD_cons_succ]

theorem fm0Bits_cell_eq (bits : List Nat) : ∀ s k, s ≤ 1 → k < bits.length →
    ((fm0Bits s bits).getD (2 * k) 0 = (fm0Bits s bits).getD (2 * k + 1) 0 ↔
      ¬ bits.getD k 0 = 1) := by
  induction bits with
  | nil =>
    intro s k _ hk
    simp at hk
  | cons b rest ih =>
    intro s k hs hk
    cases k with
    | zero =>
      by_cases hb : b = 1
      · rw [fm0Bits, if_pos hb]
        show (s ^^^ 1 = s ↔ ¬(b :: rest).getD 0 0 = 1)
        rw [List.getD_cons_zero, hb]
        simp [xor_one_ne_of_le s hs]
      · rw [fm0Bits, if_neg hb]
        show (s ^^^ 1 = s ^^^ 1 ↔ ¬(b :: rest).getD 0 0 = 1)
        rw [List.getD_cons_zero]
        simp [hb]
    | succ j =>
      have hj : j < rest.length := by
        simp only [List.length_cons] at hk
        omega
      have e2 : 2 * (j + 1) + 1 = (2 * j + 1) + 2 := by ring
      have e1 : 2 * (j + 1) = 2 * j + 2 := by ring
      by_cases hb : b = 1
      · rw [fm0Bits, if_pos hb, e2, e1, getD_cons_cons, getD_cons_cons,
          List.getD_cons_succ]
        exact ih s j hs hj
      · rw [fm0Bits, if_neg hb, e2, e1, getD_cons_cons, getD_cons_cons,
          List.getD_cons_succ]
        exact ih (s ^^^ 1) j (xor_one_le s hs) hj

theorem fm0Bits_boundary (bits : List Nat) : ∀ s k, k < bits.length →
    (fm0Bits s bits).getD (2 * k) 0 =
      (if k = 0 then s else (fm0Bits s bits).getD (2 * (k - 1) + 1) 0) ^^^ 1 := by
  induction bits with
  | nil =>
    intro s k hk
    simp at hk
  | cons b rest ih =>
    intro s k hk
    cases k with
    | zero =>
      rw [if_pos rfl]
      by_cases hb : b = 1 <;> rw [fm0Bits] <;> simp [hb]
    | succ j =>
      rw [if_neg (Nat.succ_ne_zero j)]
      have hj : j < rest.length := by
        simp only [List.length_cons] at hk
        omega
      have e1 : 2 * (j + 1) = 2 * j + 2 := by ring
      have e4 : 2 * (j + 1 - 1) + 1 = 2 * j + 1 := by simp
      by_cases hb : b = 1
      · rw [fm0Bits, if_pos hb, e1, getD_cons_cons, e4]
        have h0 := ih s j hj
        cases j with
        | zero =>
          rw [if_pos rfl] at h0
          show (fm0Bits s rest).getD (2 * 0) 0 = s ^^^ 1
          exact h0
        | succ t =>
          rw [if_neg (Nat.succ_ne_zero t)] at h0
          have e5 : 2 * (t + 1) + 1 = (2 * t + 1) + 2 := by ring
          have e6 : 2 * (t + 1 - 1) + 1 = 2 * t + 1 := by simp
          rw [e5, getD_cons_cons]
          rw [e6] at h0
          exact h0
      · rw [fm0Bits, if_neg hb, e1, getD_cons_cons, e4]
        have h0 := ih (s ^^^ 1) j hj
        cases j with
        | zero =>
          rw [if_pos rfl] at h0
          show (fm0Bits (s ^^^ 1) rest).getD (2 * 0) 0 = (s ^^^ 1) ^^^ 1
          exact h0
        | succ t =>
          rw [if_neg (Nat.succ_ne_zero t)] at h0
          have e5 : 2 * (t + 1) + 1 = (2 * t + 1) + 2 := by ring
          have e6 : 2 * (t + 1 - 1) + 1 = 2 * t + 1 := by simp
          rw [e5, getD_cons_cons]
          rw [e6] at h0
          exact h0

theorem fm1Bits_cell_eq (bits : List Nat) : ∀ s k,
    (fm1Bits s bits).getD (2 * k) 0 = (fm1Bits s bits).getD (2 * k + 1) 0 := by
  induction bits with
  | nil =>
    intro s k
    rfl
  | cons b rest ih =>
    intro s k
    cases k with
    | zero =>
      by_cases hb : b = 1
      · rw [fm1Bits, if_pos hb]
        rfl
      · rw [fm1Bits, if_neg hb]
        rfl
    | succ j =>
      have e2 : 2 * (j + 1) + 1 = (2 * j + 1) + 2 := by ring
      have e1 : 2 * (j + 1) = 2 * j + 2 := by ring
      by_cases hb : b = 1
      · rw [fm1Bits, if_pos hb, e2, e1, getD_cons_cons, getD_cons_cons]
        exact ih (s ^^^ 1) j
      · rw [fm1Bits, if_neg hb, e2, e1, getD_cons_cons, getD_cons_cons]
        exact ih s j

theorem fm1Bits_first (bits : List Nat) : ∀ s k, k < bits.length →
    (∀ b ∈ bits, b ≤ 1) →
    (fm1Bits s bits).getD (2 * k) 0 =
      (if k = 0 then s else (fm1Bits s bits).getD (2 * (k - 1) + 1) 0) ^^^
        bits.getD k 0 := by
  induction bits with
  | nil =>
    intro s k hk _
    simp at hk
  | cons b rest ih =>
    intro s k hk hle
    cases k with
    | zero =>
      rw [if_pos rfl, List.getD_cons_zero]
      by_cases hb : b = 1
      · rw [fm1Bits, if_pos hb, hb]
        rfl
      · have hb0 : b = 0 := by
          have := hle b (List.mem_cons_self _ _)
          omega
        rw [fm1Bits, if_neg hb, hb0]
        show s = s ^^^ 0
        rw [Nat.xor_zero]
    | succ j =>
      rw [if_neg (Nat.succ_ne_zero j), List.getD_cons_succ]
      have hj : j < rest.length := by
        simp only [List.length_cons] at hk
        omega
      have hle' : ∀ c ∈ rest, c ≤ 1 := fun c hc => hle c (List.mem_cons_of_mem _ hc)
      have e1 : 2 * (j + 1) = 2 * j + 2 := by ring
      have e4 : 2 * (j + 1 - 1) + 1 = 2 * j + 1 := by simp
      by_cases hb : b = 1
      · rw [fm1Bits, if_pos hb, e1, getD_cons_cons, e4]
        have h0 := ih (s ^^^ 1) j hj hle'
        cases j with
        | zero =>
          rw [if_pos rfl] at h0
          show (fm1Bits (s ^^^ 1) rest).getD (2 * 0) 0 = (s ^^^ 1) ^^^ rest.getD 0 0
          exact h0
        | succ t =>
          rw [if_neg (Nat.succ_ne_zero t)] at h0
          have e5 : 2 * (t + 1) + 1 = (2 * t + 1) + 2 := by ring
          have e6 : 2 * (t + 1 - 1) + 1 = 2 * t + 1 := by simp
          rw [e5, getD_cons_cons]
          rw [e6] at h0
          exact h0
      · rw [fm1Bits, if_neg hb, e1, getD_cons_cons, e4]
        have h0 := ih s j hj hle'
        cases j with
        | zero =>
          rw [if_pos rfl] at h0
          show (fm1Bits s rest).getD (2 * 0) 0 = s ^^^ rest.getD 0 0
          exact h0
        | succ t =>
          rw [if_neg (Nat.succ_ne_zero t)] at h0
          have e5 : 2 * (t + 1) + 1 = (2 * t + 1) + 2 := by ring
          have e6 : 2 * (t + 1 - 1) + 1 = 2 * t + 1 := by simp
          rw [e5, getD_cons_cons]
          rw [e6] at h0
          exact h0

theorem manBits_cell (bits : List Nat) : ∀ k, k < bits.length →
    ((manBits bits).getD (2 * k) 0, (manBits bits).getD (2 * k + 1) 0) =
      if bits.getD k 0 = 1 then ((0 : Nat), (1 : Nat)) else (1, 0) := by
  induction bits with
  | nil =>
    intro k hk
    simp at hk
  | cons b rest ih =>
    intro k hk
    cases k with
    | zero =>
      by_cases hb : b = 1 <;> rw [manBits] <;> simp [hb]
    | succ j =>
      have hj : j < rest.length := by
        simp only [List.length_cons] at hk
        omega
      have e2 : 2 * (j + 1) + 1 = (2 * j + 1) + 2 := by ring
      have e1 : 2 * (j + 1) = 2 * j + 2 := by ring
      by_cases hb : b = 1
      · rw [manBits, if_pos hb, e2, e1, getD_cons_cons, getD_cons_cons,
          List.getD_cons_succ]
        exact ih j hj
      · rw [manBits, if_neg hb, e2, e1, getD_cons_cons, getD_cons_cons,
          List.getD_cons_succ]
        exact ih j hj

/-! ## The decoder cell-bit lists and the first-rejected-cell searches -/

theorem fm0CellBits_length (encoded : List Nat) (c : Nat) :
    ∀ k, (fm0CellBits encoded k c).length = c := by
  induction c with
  | zero => intro k; rfl
  | succ n ih =>
    intro k
    rw [fm0CellBits, List.length_cons, ih]

theorem fm0CellBits_le_one (encoded : List Nat) (c : Nat) :
    ∀ k, ∀ b ∈ fm0CellBits encoded k c, b ≤ 1 := by
  induction c with
  | zero =>
    intro k b hb
    simp [fm0CellBits] at hb
  | succ n ih =>
    intro k b hb
    rw [fm0CellBits] at hb
    rcases List.mem_cons.mp hb with h | h
    · rw [h]
      split <;> norm_num
    · exact ih (k + 1) b h

theorem fm0CellBits_getD (encoded : List Nat) (c : Nat) : ∀ k t, t < c →
    (fm0CellBits encoded k c).getD t 0 =
      if cellFst encoded (k + t) = cellSnd encoded (k + t) then 0 else 1 := by
  induction c with
  | zero =>
    intro k t ht
    omega
  | succ n ih =>
    intro k t ht
    rw [fm0CellBits]
    cases t with
    | zero => rw [List.getD_cons_zero, Nat.add_zero]
    | succ u =>
      rw [List.getD_cons_succ, ih (k + 1) u (by omega),
        show k + 1 + u = k + (u + 1) from by ring]

theorem fm1CellBits_length (encoded : List Nat) (c : Nat) :
    ∀ s k, (fm1CellBits encoded s k c).length = c := by
  induction c with
  | zero => intro s k; rfl
  | succ n ih =>
    intro s k
    rw [fm1CellBits, List.length_cons, ih]

theorem fm1CellBits_le_one (encoded : List Nat) (c : Nat) :
    ∀ s k, ∀ b ∈ fm1CellBits encoded s k c, b ≤ 1 := by
  induction c with
  | zero =>
    intro s k b hb
    simp [fm1CellBits] at hb
  | succ n ih =>
    intro s k b hb
    rw [fm1CellBits] at hb
    rcases List.mem_cons.mp hb with h | h
    · rw [h]
      split <;> norm_num
    · exact ih _ (k + 1) b h

theorem fm1CellBits_getD (encoded : List Nat) (c : Nat) : ∀ s k t, t < c →
    (fm1CellBits encoded s k c).getD t 0 =
      if cellFst encoded (k + t) ≠ (if t = 0 then s else cellSnd encoded (k + t - 1))
      then 1 else 0 := by
  induction c with
  | zero =>
    intro s k t ht
    omega
  | succ n ih =>
    intro s k t ht
    rw [fm1CellBits]
    cases t with
    | zero => rw [List.getD_cons_zero, Nat.add_zero, if_pos rfl]
    | succ u =>
      rw [List.getD_cons_succ, ih (cellSnd encoded k) (k + 1) u (by omega),
        if_neg (Nat.succ_ne_zero u)]
      cases u with
      | zero =>
        rw [if_pos rfl]
        norm_num
      | succ v =>
        rw [if_neg (Nat.succ_ne_zero v)]
        have ha : k + 1 + (v + 1) = k + (v + 1 + 1) := by ring
        rw [ha]

theorem manCellBits_length (encoded : List Nat) (c : Nat) :
    ∀ k, (manCellBits encoded k c).length = c := by
  induction c with
  | zero => intro k; rfl
  | succ n ih =>
    intro k
    rw [manCellBits, List.length_cons, ih]

theorem manCellBits_le_one (encoded : List Nat) (c : Nat) :
    ∀ k, ∀ b ∈ manCellBits encoded k c, b ≤ 1 := by
  induction c with
  | zero =>
    intro k b hb
    simp [manCellBits] at hb
  | succ n ih =>
    intro k b hb
    rw [manCellBits] at hb
    rcases List.mem_cons.mp hb with h | h
    · rw [h]
      split <;> norm_num
    · exact ih (k + 1) b h

theorem manCellBits_getD (encoded : List Nat) (c : Nat) : ∀ k t, t < c →
    (manCellBits encoded k c).getD t 0 =
      if cellFst encoded (k + t) = 0 ∧ cellSnd encoded (k + t) = 1 then 1 else 0 := by
  induction c with
  | zero =>
    intro k t ht
    omega
  | succ n ih =>
    intro k t ht
    rw [manCellBits]
    cases t with
    | zero => rw [List.getD_cons_zero, Nat.add_zero]
    | succ u =>
      rw [List.getD_cons_succ, ih (k + 1) u (by omega),
        show k + 1 + u = k + (u + 1) from by ring]

theorem firstDiffFrom_none (buf : List Nat) (c : Nat) : ∀ k,
    firstDiffFrom buf k c = none ↔
      ∀ t, t < c → cellFst buf (k + t) = cellSnd buf (k + t) := by
  induction c with
  | zero =>
    intro k
    simp [firstDiffFrom]
  | succ n ih =>
    intro k
    rw [firstDiffFrom]
    by_cases hd : cellFst buf k ≠ cellSnd buf k
    · rw [if_pos hd]
      constructor
      · intro h
        cases h
      · intro h
        exact absurd (by simpa using h 0 (by omega)) hd
    · rw [if_neg hd, ih (k + 1)]
      constructor
      · intro h t ht
        cases t with
        | zero =>
          simpa using not_not.mp hd
        | succ u =>
          have hu := h u (by omega)
          rw [show k + 1 + u = k + (u + 1) from by ring] at hu
          exact hu
      · intro h t ht
        have hu := h (t + 1) (by omega)
        rw [show k + (t + 1) = k + 1 + t from by ring] at hu
        exact hu

theorem firstDiffFrom_some (buf : List Nat) (c : Nat) : ∀ k m,
    firstDiffFrom buf k c = some m →
      k ≤ m ∧ m < k + c ∧ cellFst buf m ≠ cellSnd buf m ∧
        ∀ t, k ≤ t → t < m → cellFst buf t = cellSnd buf t := by
  induction c with
  | zero =>
    intro k m h
    cases h
  | succ n ih =>
    intro k m h
    rw [firstDiffFrom] at h
    by_cases hd : cellFst buf k ≠ cellSnd buf k
    · rw [if_pos hd] at h
      obtain rfl : k = m := Option.some.inj h
      exact ⟨le_rfl, by omega, hd, fun t ht1 ht2 => absurd ht2 (by omega)⟩
    · rw [if_neg hd] at h
      obtain ⟨h1, h2, h3, h4⟩ := ih (k + 1) m h
      refine ⟨by omega, by omega, h3, ?_⟩
      intro t ht1 ht2
      rcases Nat.eq_or_lt_of_le ht1 with heq | hlt
      · rw [← heq]
        exact not_not.mp hd
      · exact h4 t (by omega) ht2

theorem firstDiffFrom_eq_some (buf : List Nat) (c : Nat) : ∀ k m,
    k ≤ m → m < k + c → cellFst buf m ≠ cellSnd buf m →
    (∀ t, k ≤ t → t < m → cellFst buf t = cellSnd buf t) →
    firstDiffFrom buf k c = some m := by
  induction c with
  | zero =>
    intro k m h1 h2 _ _
    omega
  | succ n ih =>
    intro k m h1 h2 h3 h4
    rw [firstDiffFrom]
    rcases Nat.eq_or_lt_of_le h1 with heq | hlt
    · rw [← heq, if_pos (heq ▸ h3)]
    · rw [if_neg (not_not.mpr (h4 k le_rfl hlt))]
      exact ih (k + 1) m (by omega) (by omega) h3 (fun t ht1 ht2 => h4 t (by omega) ht2)

theorem firstEqFrom_none (buf : List Nat) (c : Nat) : ∀ k,
    firstEqFrom buf k c = none ↔
      ∀ t, t < c → cellFst buf (k + t) ≠ cellSnd buf (k + t) := by
  induction c with
  | zero =>
    intro k
    simp [firstEqFrom]
  | succ n ih =>
    intro k
    rw [firstEqFrom]
    by_cases hd : cellFst buf k = cellSnd buf k
    · rw [if_pos hd]
      constructor
      · intro h
        cases h
      · intro h
        exact absurd (show cellFst buf (k + 0) = cellSnd buf (k + 0) from by
          simpa using hd) (h 0 (by omega))
    · rw [if_neg hd, ih (k + 1)]
      constructor
      · intro h t ht
        cases t with
        | zero =>
          simpa using hd
        | succ u =>
          have hu := h u (by omega)
          rw [show k + 1 + u = k + (u + 1) from by ring] at hu
          exact hu
      · intro h t ht
        have hu := h (t + 1) (by omega)
        rw [show k + (t + 1) = k + 1 + t from by ring] at hu
        exact hu

theorem firstEqFrom_some (buf : List Nat) (c : Nat) : ∀ k m,
    firstEqFrom buf k c = some m →
      k ≤ m ∧ m < k + c ∧ cellFst buf m = cellSnd buf m ∧
        ∀ t, k ≤ t → t < m → cellFst buf t ≠ cellSnd buf t := by
  induction c with
  | zero =>
    intro k m h
    cases h
  | succ n ih =>
    intro k m h
    rw [firstEqFrom] at h
    by_cases hd : cellFst buf k = cellSnd buf k
    · rw [if_pos hd] at h
      obtain rfl : k = m := Option.some.inj h
      exact ⟨le_rfl, by omega, hd, fun t ht1 ht2 => absurd ht2 (by omega)⟩
    · rw [if_neg hd] at h
      obtain ⟨h1, h2, h3, h4⟩ := ih (k + 1) m h
      refine ⟨by omega, by omega, h3, ?_⟩
      intro t ht1 ht2
      rcases Nat.eq_or_lt_of_le ht1 with heq | hlt
      · rw [← heq]
        exact hd
      · exact h4 t (by omega) ht2

theorem firstEqFrom_eq_some (buf : List Nat) (c : Nat) : ∀ k m,
    k ≤ m → m < k + c → cellFst buf m = cellSnd buf m →
    (∀ t, k ≤ t → t < m → cellFst buf t ≠ cellSnd buf t) →
    firstEqFrom buf k c = some m := by
  induction c with
  | zero =>
    intro k m h1 h2 _ _
    omega
  | succ n ih =>
    intro k m h1 h2 h3 h4
    rw [firstEqFrom]
    rcases Nat.eq_or_lt_of_le h1 with heq | hlt
    · rw [← heq, if_pos (heq ▸ h3)]
    · rw [if_neg (h4 k le_rfl hlt)]
      exact ih (k + 1) m (by omega) (by omega) h3 (fun t ht1 ht2 => h4 t (by omega) ht2)

/-! ## NRZI: per-byte exhaustive facts and per-buffer lemmas -/

set_option maxRecDepth 100000 in
set_option maxHeartbeats 4000000 in
theorem nrzi_byte_rt : ∀ s, s < 2 → ∀ b, b < 256 →
    nrziDecodeByte (nrziEncodeByte b s).1 s = (b, (nrziEncodeByte b s).2) ∧
      (nrziEncodeByte b s).1 < 256 ∧ (nrziEncodeByte b s).2 < 2 := by decide

set_option maxRecDepth 100000 in
set_option maxHeartbeats 4000000 in
theorem nrzi_byte_tr : ∀ s, s < 2 → ∀ y, y < 256 →
    nrziEncodeByte (nrziDecodeByte y s).1 s = (y, (nrziDecodeByte y s).2) ∧
      (nrziDecodeByte y s).1 < 256 ∧ (nrziDecodeByte y s).2 < 2 := by decide

theorem nrziEncodeGo_length (x : List Nat) : ∀ s, (nrziEncodeGo s x).length = x.length := by
  induction x with
  | nil => intro s; rfl
  | cons b rest ih =>
    intro s
    show ((nrziEncodeByte b s).1 :: nrziEncodeGo (nrziEncodeByte b s).2 rest).length = _
    rw [List.length_cons, ih, List.length_cons]

theorem nrziDecodeGo_encodeGo (x : List Nat) : ∀ s, s < 2 → (∀ b ∈ x, b < 256) →
    nrziDecodeGo s (nrziEncodeGo s x) = x := by
  induction x with
  | nil => intro s _ _; rfl
  | cons b rest ih =>
    intro s hs hx
    have h := nrzi_byte_rt s hs b (hx b (List.mem_cons_self _ _))
    show (nrziDecodeByte (nrziEncodeByte b s).1 s).1 ::
        nrziDecodeGo (nrziDecodeByte (nrziEncodeByte b s).1 s).2
          (nrziEncodeGo (nrziEncodeByte b s).2 rest) = b :: rest
    rw [h.1]
    show b :: nrziDecodeGo (nrziEncodeByte b s).2 (nrziEncodeGo (nrziEncodeByte b s).2 rest)
      = b :: rest
    rw [ih (nrziEncodeByte b s).2 h.2.2 (fun z hz => hx z (List.mem_cons_of_mem _ hz))]

theorem nrziEncodeGo_decodeGo (y : List Nat) : ∀ s, s < 2 → (∀ b ∈ y, b < 256) →
    nrziEncodeGo s (nrziDecodeGo s y) = y := by
  induction y with
  | nil => intro s _ _; rfl
  | cons b rest ih =>
    intro s hs hy
    have h := nrzi_byte_tr s hs b (hy b (List.mem_cons_self _ _))
    show (nrziEncodeByte (nrziDecodeByte b s).1 s).1 ::
        nrziEncodeGo (nrziEncodeByte (nrziDecodeByte b s).1 s).2
          (nrziDecodeGo (nrziDecodeByte b s).2 rest) = b :: rest
    rw [h.1]
    show b :: nrziEncodeGo (nrziDecodeByte b s).2 (nrziDecodeGo (nrziDecodeByte b s).2 rest)
      = b :: rest
    rw [ih (nrziDecodeByte b s).2 h.2.2 (fun z hz => hy z (List.mem_cons_of_mem _ hz))]

/-! ## Top-level decode characterizations -/

theorem fm0Decode_even (y : List Nat) (h2 : y.length % 2 = 0) :
    fm0Decode y = .ok (pack (y.length / 2) (fm0CellBits y 0 (4 * y.length))) := by
  unfold fm0Decode
  have hc : y.length * 8 / 2 = 4 * y.length := by omega
  rw [hc, fm0DecodeGo_ok (4 * y.length) y 0 (List.replicate (y.length / 2) 0)
    (by omega) (by rw [List.length_replicate]; omega)
    (fun z hz => by rw [List.eq_of_mem_replicate hz]; norm_num)
    (fun t _ => readBit_replicate _ _)]
  rfl

theorem fm0Decode_odd (y : List Nat) (h2 : y.length % 2 = 1) :
    fm0Decode y = .error .outOfBounds := by
  unfold fm0Decode
  exact fm0DecodeGo_oob _ y 0 _ (by omega) (by rw [List.length_replicate]; omega)
    (by rw [List.length_replicate]; omega)
    (fun z hz => by rw [List.eq_of_mem_replicate hz]; norm_num)
    (fun t _ => readBit_replicate _ _)

theorem fm1Decode_even (y : List Nat) (h2 : y.length % 2 = 0) :
    fm1Decode y =
      match firstDiffFrom y 0 (4 * y.length) with
      | some m => .error (.decodingError (2 * m))
      | none => .ok (pack (y.length / 2) (fm1CellBits y 1 0 (4 * y.length))) := by
  unfold fm1Decode
  have hc : y.length * 8 / 2 = 4 * y.length := by omega
  rw [hc, fm1DecodeGo_spec (4 * y.length) y 1 0 (List.replicate (y.length / 2) 0)
    (by omega) (by rw [List.length_replicate]; omega)
    (fun z hz => by rw [List.eq_of_mem_replicate hz]; norm_num)
    (fun t _ => readBit_replicate _ _)]
  cases firstDiffFrom y 0 (4 * y.length) <;> rfl

theorem fm1Decode_not_ok_odd (y : List Nat) (h2 : y.length % 2 = 1) :
    ∀ out, fm1Decode y ≠ .ok out := by
  unfold fm1Decode
  exact fm1DecodeGo_not_ok _ y 1 0 _ (by omega) (by rw [List.length_replicate]; omega)
    (by rw [List.length_replicate]; omega)
    (fun z hz => by rw [List.eq_of_mem_replicate hz]; norm_num)
    (fun t _ => readBit_replicate _ _)

theorem manchesterDecode_even (y : List Nat) (h2 : y.length % 2 = 0) :
    manchesterDecode y =
      match firstEqFrom y 0 (4 * y.length) with
      | some m => .error (.decodingError (2 * m))
      | none => .ok (pack (y.length / 2) (manCellBits y 0 (4 * y.length))) := by
  unfold manchesterDecode
  have hc : y.length * 8 / 2 = 4 * y.length := by omega
  rw [hc, manchesterDecodeGo_spec (4 * y.length) y 0 (List.replicate (y.length / 2) 0)
    (by omega) (by rw [List.length_replicate]; omega)
    (fun z hz => by rw [List.eq_of_mem_replicate hz]; norm_num)
    (fun t _ => readBit_replicate _ _)]
  cases firstEqFrom y 0 (4 * y.length) <;> rfl

theorem manchesterDecode_not_ok_odd (y : List Nat) (h2 : y.length % 2 = 1) :
    ∀ out, manchesterDecode y ≠ .ok out := by
  unfold manchesterDecode
  exact manchesterDecodeGo_not_ok _ y 0 _ (by omega) (by rw [List.length_replicate]; omega)
    (by rw [List.length_replicate]; omega)
    (fun z hz => by rw [List.eq_of_mem_replicate hz]; norm_num)
    (fun t _ => readBit_replicate _ _)

/-! ## The encoders never emit a cell the corresponding decoder rejects -/

theorem fm1Encode_cells_eq (x : List Nat) (k : Nat) :
    cellFst (fm1Encode x) k = cellSnd (fm1Encode x) k := by
  unfold cellFst cellSnd
  rw [readBit_fm1Encode, readBit_fm1Encode]
  by_cases hk : 2 * k + 1 < 16 * x.length
  · rw [if_pos (by omega), if_pos hk]
    exact fm1Bits_cell_eq (bitList x) 1 k
  · rw [if_neg (by omega), if_neg (by omega)]

theorem manchesterEncode_cells (x : List Nat) (k : Nat) (hk : k < 8 * x.length) :
    (cellFst (manchesterEncode x) k, cellSnd (manchesterEncode x) k) =
      if readBit x k = 1 then ((0 : Nat), (1 : Nat)) else (1, 0) := by
  unfold cellFst cellSnd
  rw [readBit_manchesterEncode, readBit_manchesterEncode, if_pos (by omega),
    if_pos (by omega), ← bitList_getD x k (by omega)]
  exact manBits_cell (bitList x) k (by rw [bitList_length]; omega)

theorem fm0Encode_cell_iff (x : List Nat) (k : Nat) (hk : k < 8 * x.length) :
    (cellFst (fm0Encode x) k = cellSnd (fm0Encode x) k ↔ ¬ readBit x k = 1) := by
  unfold cellFst cellSnd
  rw [readBit_fm0Encode, readBit_fm0Encode, if_pos (by omega), if_pos (by omega),
    ← bitList_getD x k (by omega)]
  exact fm0Bits_cell_eq (bitList x) 1 k (by norm_num) (by rw [bitList_length]; omega)

theorem fm0Encode_boundary (x : List Nat) (k : Nat) (hk : k < 8 * x.length) :
    cellFst (fm0Encode x) k =
      (if k = 0 then 1 else cellSnd (fm0Encode x) (k - 1)) ^^^ 1 := by
  unfold cellFst cellSnd
  rw [readBit_fm0Encode, if_pos (by omega)]
  have h := fm0Bits_boundary (bitList x) 1 k (by rw [bitList_length]; omega)
  rw [h]
  cases k with
  | zero => rw [if_pos rfl, if_pos rfl]
  | succ j =>
    rw [if_neg (Nat.succ_ne_zero j), if_neg (Nat.succ_ne_zero j),
      readBit_fm0Encode, if_pos (by omega)]

/-! ## Round trips -/

theorem fm0Encode_length (x : List Nat) : (fm0Encode x).length = 2 * x.length := by
  rw [fm0Encode_eq, pack_length]

theorem fm1Encode_length (x : List Nat) : (fm1Encode x).length = 2 * x.length := by
  rw [fm1Encode_eq, pack_length]

theorem manchesterEncode_length (x : List Nat) :
    (manchesterEncode x).length = 2 * x.length := by
  rw [manchesterEncode_eq, pack_length]

theorem fm0_roundtrip (x : List Nat) (hx : ∀ b ∈ x, b < 256) :
    fm0Decode (fm0Encode x) = .ok x := by
  have hlen : (fm0Encode x).length = 2 * x.length := fm0Encode_length x
  rw [fm0Decode_even _ (by omega), hlen]
  have hn : 2 * x.length / 2 = x.length := by omega
  have hc : 4 * (2 * x.length) = 8 * x.length := by ring
  rw [hn, hc]
  congr 1
  apply buf_ext
  · rw [pack_length]
  · exact pack_lt _ _ (fm0CellBits_le_one _ _ 0)
  · exact hx
  · intro j hj
    have hj8 : j < 8 * x.length := by rwa [pack_length] at hj
    rw [readBit_pack _ _ (by rw [fm0CellBits_length]) (fm0CellBits_le_one _ _ 0),
      fm0CellBits_length, if_pos hj8, fm0CellBits_getD _ _ 0 j hj8]
    have hzj : (0 : Nat) + j = j := Nat.zero_add j
    rw [hzj]
    have hiff := fm0Encode_cell_iff x j hj8
    have hle := readBit_le_one x j
    by_cases hc2 : cellFst (fm0Encode x) j = cellSnd (fm0Encode x) j
    · rw [if_pos hc2]
      have hne := hiff.mp hc2
      omega
    · rw [if_neg hc2]
      have h1 : readBit x j = 1 := by
        by_contra hno
        exact hc2 (hiff.mpr hno)
      omega

theorem fm1_decoded_bit (x : List Nat) (j : Nat) (hj8 : j < 8 * x.length) :
    (if cellFst (fm1Encode x) j ≠
        (if j = 0 then 1 else cellSnd (fm1Encode x) (j - 1)) then 1 else 0) =
      readBit x j := by
  have hfst : cellFst (fm1Encode x) j = (fm1Bits 1 (bitList x)).getD (2 * j) 0 := by
    unfold cellFst
    rw [readBit_fm1Encode, if_pos (by omega)]
  have hfirst := fm1Bits_first (bitList x) 1 j (by rw [bitList_length]; omega)
    (bitList_le_one x)
  have hbj : (bitList x).getD j 0 = readBit x j := bitList_getD x j (by omega)
  have hle := readBit_le_one x j
  cases j with
  | zero =>
    rw [if_pos rfl] at hfirst ⊢
    rw [hfst, hfirst, hbj]
    rcases Nat.le_one_iff_eq_zero_or_eq_one.mp hle with h0 | h1
    · rw [h0, Nat.xor_zero, if_neg (by norm_num)]
    · rw [h1, if_pos (xor_one_ne_of_le 1 le_rfl)]
  | succ t =>
    rw [if_neg (Nat.succ_ne_zero t)] at hfirst ⊢
    have hsnd : cellSnd (fm1Encode x) (t + 1 - 1) =
        (fm1Bits 1 (bitList x)).getD (2 * (t + 1 - 1) + 1) 0 := by
      unfold cellSnd
      rw [readBit_fm1Encode, if_pos (by omega)]
    rw [hfst, hfirst, hbj, hsnd]
    have hprev : (fm1Bits 1 (bitList x)).getD (2 * (t + 1 - 1) + 1) 0 ≤ 1 :=
      getD_le_one _ _ (fm1Bits_le_one (bitList x) 1 (by norm_num))
    rcases Nat.le_one_iff_eq_zero_or_eq_one.mp hle with h0 | h1
    · rw [h0, Nat.xor_zero, if_neg (by norm_num)]
    · rw [h1, if_pos (xor_one_ne_of_le _ hprev)]

theorem fm1_roundtrip (x : List Nat) (hx : ∀ b ∈ x, b < 256) :
    fm1Decode (fm1Encode x) = .ok x := by
  have hlen : (fm1Encode x).length = 2 * x.length := fm1Encode_length x
  rw [fm1Decode_even _ (by omega), hlen]
  have hn : 2 * x.length / 2 = x.length := by omega
  have hc : 4 * (2 * x.length) = 8 * x.length := by ring
  rw [hn, hc]
  have hnone : firstDiffFrom (fm1Encode x) 0 (8 * x.length) = none :=
    (firstDiffFrom_none _ _ 0).mpr (fun t _ => fm1Encode_cells_eq x (0 + t))
  rw [hnone]
  show Except.ok (pack x.length (fm1CellBits (fm1Encode x) 1 0 (8 * x.length))) =
    Except.ok x
  congr 1
  apply buf_ext
  · rw [pack_length]
  · exact pack_lt _ _ (fm1CellBits_le_one _ _ 1 0)
  · exact hx
  · intro j hj
    have hj8 : j < 8 * x.length := by rwa [pack_length] at hj
    rw [readBit_pack _ _ (by rw [fm1CellBits_length]) (fm1CellBits_le_one _ _ 1 0),
      fm1CellBits_length, if_pos hj8, fm1CellBits_getD _ _ 1 0 j hj8]
    have hzj : (0 : Nat) + j = j := Nat.zero_add j
    rw [hzj]
    exact fm1_decoded_bit x j hj8

theorem manchester_roundtrip (x : List Nat) (hx : ∀ b ∈ x, b < 256) :
    manchesterDecode (manchesterEncode x) = .ok x := by
  have hlen : (manchesterEncode x).length = 2 * x.length := manchesterEncode_length x
  rw [manchesterDecode_even _ (by omega), hlen]
  have hn : 2 * x.length / 2 = x.length := by omega
  have hc : 4 * (2 * x.length) = 8 * x.length := by ring
  rw [hn, hc]
  have hcells : ∀ t, t < 8 * x.length →
      (cellFst (manchesterEncode x) t, cellSnd (manchesterEncode x) t) =
        if readBit x t = 1 then ((0 : Nat), (1 : Nat)) else (1, 0) :=
    fun t ht => manchesterEncode_cells x t ht
  have hnone : firstEqFrom (manchesterEncode x) 0 (8 * x.length) = none := by
    refine (firstEqFrom_none _ _ 0).mpr (fun t ht => ?_)
    have hp := hcells (0 + t) (by omega)
    by_cases hb : readBit x (0 + t) = 1
    · rw [if_pos hb] at hp
      rw [(Prod.mk.injEq _ _ _ _).mp hp |>.1, (Prod.mk.injEq _ _ _ _).mp hp |>.2]
      norm_num
    · rw [if_neg hb] at hp
      rw [(Prod.mk.injEq _ _ _ _).mp hp |>.1, (Prod.mk.injEq _ _ _ _).mp hp |>.2]
      norm_num
  rw [hnone]
  show Except.ok (pack x.length (manCellBits (manchesterEncode x) 0 (8 * x.length))) =
    Except.ok x
  congr 1
  apply buf_ext
  · rw [pack_length]
  · exact pack_lt _ _ (manCellBits_le_one _ _ 0)
  · exact hx
  · intro j hj
    have hj8 : j < 8 * x.length := by rwa [pack_length] at hj
    rw [readBit_pack _ _ (by rw [manCellBits_length]) (manCellBits_le_one _ _ 0),
      manCellBits_length, if_pos hj8, manCellBits_getD _ _ 0 j hj8]
    have hzj : (0 : Nat) + j = j := Nat.zero_add j
    rw [hzj]
    have hp := hcells j hj8
    have hle := readBit_le_one x j
    by_cases hb : readBit x j = 1
    · rw [if_pos hb] at hp
      rw [if_pos ⟨(Prod.mk.injEq _ _ _ _).mp hp |>.1, (Prod.mk.injEq _ _ _ _).mp hp |>.2⟩]
      omega
    · rw [if_neg hb] at hp
      rw [if_neg (by
        intro hcon
        have h1 := (Prod.mk.injEq _ _ _ _).mp hp |>.1
        rw [hcon.1] at h1
        exact absurd h1 (by norm_num))]
      omega

theorem nrzi_roundtrip (x : List Nat) (hx : ∀ b ∈ x, b < 256) :
    nrziDecode (nrziEncode x) = .ok x := by
  unfold nrziDecode nrziEncode
  rw [nrziDecodeGo_encodeGo x 1 (by norm_num) hx]

/-! ## Decoded-output reshaping lemmas -/

theorem fm1CellBits_as_map (y : List Nat) (c : Nat) :
    fm1CellBits y 1 0 c =
      (List.range c).map (fun k => if cellFst y k ≠ fm1Prev y k then 1 else 0) := by
  apply List.ext_getElem
  · rw [fm1CellBits_length, List.length_map, List.length_range]
  · intro i h1 h2
    rw [List.getElem_map, List.getElem_range, ← List.getD_eq_getElem _ 0 h1,
      fm1CellBits_getD _ _ 1 0 i (by rwa [fm1CellBits_length] at h1), Nat.zero_add]
    unfold fm1Prev
    rfl

theorem manCellBits_as_map (y : List Nat) (c : Nat) :
    manCellBits y 0 c =
      (List.range c).map (fun k => if cellFst y k = 0 ∧ cellSnd y k = 1 then 1 else 0) := by
  apply List.ext_getElem
  · rw [manCellBits_length, List.length_map, List.length_range]
  · intro i h1 h2
    rw [List.getElem_map, List.getElem_range, ← List.getD_eq_getElem _ 0 h1,
      manCellBits_getD _ _ 0 i (by rwa [manCellBits_length] at h1), Nat.zero_add]

theorem man_bad_iff (y : List Nat) (m : Nat) :
    ((cellFst y m = 0 ∧ cellSnd y m = 0) ∨ (cellFst y m = 1 ∧ cellSnd y m = 1)) ↔
      cellFst y m = cellSnd y m := by
  have h1 := readBit_le_one y (2 * m)
  have h2 := readBit_le_one y (2 * m + 1)
  unfold cellFst cellSnd
  omega

/-! ## Claim theorems -/

/-- C1: for every codec variant among NRZ, NRZI, FM0, FM1 and Manchester, and
for every byte sequence (every byte in the `u8` range, including the empty
sequence), decode ∘ encode succeeds and returns exactly the input. -/
theorem roundtrip_law (e : EncodingType) (x : List Nat) (hx : ∀ b ∈ x, b < 256) :
    EncodingType.decode e (EncodingType.encode e x) = .ok x := by
  cases e with
  | NRZ => rfl
  | NRZI => exact nrzi_roundtrip x hx
  | FM0 => exact fm0_roundtrip x hx
  | FM1 => exact fm1_roundtrip x hx
  | Manchester => exact manchester_roundtrip x hx

/-- Witness for C1: the repository acceptance input `[0xA5, 0x5A]` through FM0. -/
theorem roundtrip_law_witness :
    (∀ b ∈ [165, 90], b < 256) ∧
      EncodingType.decode .FM0 (EncodingType.encode .FM0 [165, 90]) = .ok [165, 90] :=
  ⟨by decide, roundtrip_law .FM0 [165, 90] (by decide)⟩

/-- C4 counterexample: NRZI-encoding `[0xFF]` from the HIGH initial state gives
the byte `0x55` (bit pattern 01010101), not `0xAA` (10101010) as claimed: the
first 1-bit toggles the line to LOW, so the output starts with 0. -/
theorem nrzi_ff_cex :
    EncodingType.encode .NRZI [255] ≠ [170] ∧
      EncodingType.encode .NRZI [255] = [85] := by decide

/-- C4 (amended): NRZI-encoding `[0xFF]` toggles the line on every bit starting
from HIGH, producing the alternating pattern 01010101 (the byte `0x55`), and
decoding that back yields `0xFF`. -/
theorem nrzi_ff_toggle :
    EncodingType.encode .NRZI [255] = [85] ∧
    readBit [85] 0 = 0 ∧ readBit [85] 1 = 1 ∧ readBit [85] 2 = 0 ∧
    readBit [85] 3 = 1 ∧ readBit [85] 4 = 0 ∧ readBit [85] 5 = 1 ∧
    readBit [85] 6 = 0 ∧ readBit [85] 7 = 1 ∧
    EncodingType.decode .NRZI [85] = .ok [255] := by decide

/-- C5 counterexample: in FM0, input `[0x80]` has input bit 0 equal to 1, and
the corresponding output cell has a mid-cell transition (its two symbols
differ) — so a mid-cell transition does not occur exactly on 0-bits. -/
theorem fm0_midcell_cex :
    readBit [128] 0 = 1 ∧
      cellFst (EncodingType.encode .FM0 [128]) 0 ≠
        cellSnd (EncodingType.encode .FM0 [128]) 0 := by decide

/-- C5 (amended): in FM0-encoded output a mid-cell transition occurs exactly
when the corresponding input bit is 1 (not 0), and every cell boundary —
including the boundary with the initial HIGH state — has a transition. -/
theorem fm0_transitions (x : List Nat) (k : Nat) (hk : k < 8 * x.length) :
    (cellFst (EncodingType.encode .FM0 x) k ≠ cellSnd (EncodingType.encode .FM0 x) k ↔
      readBit x k = 1) ∧
    cellFst (EncodingType.encode .FM0 x) k ≠
      (if k = 0 then 1 else cellSnd (EncodingType.encode .FM0 x) (k - 1)) := by
  show (cellFst (fm0Encode x) k ≠ cellSnd (fm0Encode x) k ↔ readBit x k = 1) ∧
    cellFst (fm0Encode x) k ≠ (if k = 0 then 1 else cellSnd (fm0Encode x) (k - 1))
  constructor
  · have h := fm0Encode_cell_iff x k hk
    constructor
    · intro hne
      by_contra hno
      exact hne (h.mpr hno)
    · intro h1 heq
      exact absurd h1 (h.mp heq)
  · have hb := fm0Encode_boundary x k hk
    rw [hb]
    apply xor_one_ne_of_le
    split
    · norm_num
    · exact readBit_le_one _ _

/-- Witness for C5 (amended), at input `[0x80]` and bit 0. -/
theorem fm0_transitions_witness :
    (cellFst (EncodingType.encode .FM0 [128]) 0 ≠
        cellSnd (EncodingType.encode .FM0 [128]) 0 ↔
      readBit [128] 0 = 1) ∧
    cellFst (EncodingType.encode .FM0 [128]) 0 ≠
      (if (0 : Nat) = 0 then 1 else cellSnd (EncodingType.encode .FM0 [128]) (0 - 1)) :=
  fm0_transitions [128] 0 (by decide)

/-- C6: encode output lengths — exactly `(2 * 8 * len + 7) / 8 = 2 * len` bytes
for the ratio-2 variants FM0, FM1 and Manchester, and exactly `len` bytes for
the ratio-1 variants NRZ and NRZI. -/
theorem encode_length_law (x : List Nat) :
    (EncodingType.encode .NRZ x).length = x.length ∧
    (EncodingType.encode .NRZI x).length = x.length ∧
    (EncodingType.encode .FM0 x).length = (2 * (8 * x.length) + 7) / 8 ∧
    (EncodingType.encode .FM0 x).length = 2 * x.length ∧
    (EncodingType.encode .FM1 x).length = (2 * (8 * x.length) + 7) / 8 ∧
    (EncodingType.encode .FM1 x).length = 2 * x.length ∧
    (EncodingType.encode .Manchester x).length = (2 * (8 * x.length) + 7) / 8 ∧
    (EncodingType.encode .Manchester x).length = 2 * x.length := by
  refine ⟨rfl, nrziEncodeGo_length x 1, ?_, ?_, ?_, ?_, ?_, ?_⟩
  · show (fm0Encode x).length = _
    rw [fm0Encode_length]
    omega
  · show (fm0Encode x).length = _
    rw [fm0Encode_length]
  · show (fm1Encode x).length = _
    rw [fm1Encode_length]
    omega
  · show (fm1Encode x).length = _
    rw [fm1Encode_length]
  · show (manchesterEncode x).length = _
    rw [manchesterEncode_length]
    omega
  · show (manchesterEncode x).length = _
    rw [manchesterEncode_length]

/-- C8: the per-variant clock multiplier (`get_clock_ratio`) is 1 for NRZ and
NRZI and 2 for FM0, FM1 and Manchester. -/
theorem clock_ratio_law :
    clockRatioOf .NRZ = 1 ∧ clockRatioOf .NRZI = 1 ∧ clockRatioOf .FM0 = 2 ∧
      clockRatioOf .FM1 = 2 ∧ clockRatioOf .Manchester = 2 := by decide

/-- C10: NRZI decode is a two-sided inverse of NRZI encode: decoding any byte
sequence succeeds, and re-encoding the result gives back the original bytes,
so NRZI encode is a bijection on byte sequences of each length. -/
theorem nrzi_two_sided_inverse (y : List Nat) (hy : ∀ b ∈ y, b < 256) :
    ∃ d, EncodingType.decode .NRZI y = .ok d ∧ EncodingType.encode .NRZI d = y := by
  refine ⟨nrziDecodeGo 1 y, rfl, ?_⟩
  show nrziEncodeGo 1 (nrziDecodeGo 1 y) = y
  exact nrziEncodeGo_decodeGo y 1 (by norm_num) hy

/-- Witness for C10 at `[0x5A]`. -/
theorem nrzi_two_sided_inverse_witness :
    ∃ d, EncodingType.decode .NRZI [90] = .ok d ∧ EncodingType.encode .NRZI d = [90] :=
  nrzi_two_sided_inverse [90] (by decide)

/-- C2 counterexample: on the odd-length input `[0x01]` the FM1 decoder neither
succeeds nor returns a `DecodingError`: cell 3 (encoded bits 6 and 7) has
unequal symbols, so the claim predicts a `DecodingError` at position 6, but the
decoder hits an out-of-bounds write (Rust panic) on cell 0 first. -/
theorem fm1_error_characterization_cex :
    EncodingType.decode .FM1 [1] = .error .outOfBounds ∧
      EncodingType.decode .FM1 [1] ≠ .error (.decodingError 6) ∧
      cellFst [1] 3 ≠ cellSnd [1] 3 := by decide

/-- C2 (amended): for inputs of even byte length, the FM1 decoder fails with a
`DecodingError` iff some 2-bit cell has unequal symbols; the reported position
is twice the index of the earliest such cell (the encoded-bit index of its
first symbol); when all cells have equal symbols it succeeds, decoding cell `k`
to 1 exactly when its first symbol differs from the running `last_state`
(initialized HIGH, then the previous cell's second symbol).  FM1 encode never
produces a cell with unequal symbols, for inputs of any length. -/
theorem fm1_error_characterization :
    (∀ y : List Nat, y.length % 2 = 0 →
      ((∃ p, EncodingType.decode .FM1 y = .error (.decodingError p)) ↔
        ∃ k, k < 4 * y.length ∧ cellFst y k ≠ cellSnd y k) ∧
      (∀ m, m < 4 * y.length → cellFst y m ≠ cellSnd y m →
        (∀ t, t < m → cellFst y t = cellSnd y t) →
        EncodingType.decode .FM1 y = .error (.decodingError (2 * m))) ∧
      ((∀ k, k < 4 * y.length → cellFst y k = cellSnd y k) →
        EncodingType.decode .FM1 y =
          .ok (pack (y.length / 2)
            ((List.range (4 * y.length)).map
              (fun k => if cellFst y k ≠ fm1Prev y k then 1 else 0))))) ∧
    ∀ x : List Nat, ∀ k,
      cellFst (EncodingType.encode .FM1 x) k = cellSnd (EncodingType.encode .FM1 x) k := by
  constructor
  · intro y h2
    refine ⟨?_, ?_, ?_⟩
    · rw [show EncodingType.decode .FM1 y = fm1Decode y from rfl, fm1Decode_even y h2]
      cases hfd : firstDiffFrom y 0 (4 * y.length) with
      | none =>
        constructor
        · rintro ⟨p, hp⟩
          cases hp
        · rintro ⟨k, hk, hbad⟩
          have hgood := (firstDiffFrom_none y (4 * y.length) 0).mp hfd k hk
          rw [Nat.zero_add] at hgood
          exact absurd hgood hbad
      | some m =>
        constructor
        · intro _
          obtain ⟨_, hm2, hm3, _⟩ := firstDiffFrom_some y (4 * y.length) 0 m hfd
          exact ⟨m, by omega, hm3⟩
        · intro _
          exact ⟨2 * m, rfl⟩
    · intro m hm hbad hgood
      rw [show EncodingType.decode .FM1 y = fm1Decode y from rfl, fm1Decode_even y h2,
        firstDiffFrom_eq_some y (4 * y.length) 0 m (Nat.zero_le m) (by omega) hbad
          (fun t _ ht2 => hgood t ht2)]
    · intro hall
      rw [show EncodingType.decode .FM1 y = fm1Decode y from rfl, fm1Decode_even y h2,
        (firstDiffFrom_none y (4 * y.length) 0).mpr (fun t ht => by
          rw [Nat.zero_add]
          exact hall t ht)]
      rw [fm1CellBits_as_map]
  · intro x k
    show cellFst (fm1Encode x) k = cellSnd (fm1Encode x) k
    exact fm1Encode_cells_eq x k

/-- Witness for C2 (amended): `[0x40, 0x00]` has its earliest unequal cell at
index 0, and the FM1 decoder reports a `DecodingError` at bit position 0. -/
theorem fm1_error_characterization_witness :
    EncodingType.decode .FM1 [64, 0] = .error (.decodingError 0) :=
  (fm1_error_characterization.1 [64, 0] rfl).2.1 0 (by decide) (by decide)
    (fun t ht => absurd ht (Nat.not_lt_zero t))

/-- C3 counterexample: on the odd-length input `[0xAB]` the Manchester decoder
neither succeeds nor returns a `DecodingError`: cell 3 (encoded bits 6 and 7)
is `(1, 1)`, so the claim predicts a `DecodingError` at position 6, but the
decoder hits an out-of-bounds write (Rust panic) on cell 0 first. -/
theorem manchester_error_characterization_cex :
    EncodingType.decode .Manchester [171] = .error .outOfBounds ∧
      EncodingType.decode .Manchester [171] ≠ .error (.decodingError 6) ∧
      cellFst [171] 3 = 1 ∧ cellSnd [171] 3 = 1 := by decide

/-- C3 (amended): for inputs of even byte length, the Manchester decoder maps
cell `(0, 1)` to bit 1 and `(1, 0)` to bit 0, and fails with a `DecodingError`
at the bit position of the earliest cell that is `(0, 0)` or `(1, 1)` exactly
when such a cell exists.  Manchester encode maps input bit 1 to `(0, 1)`
(LOW, HIGH) and input bit 0 to `(1, 0)` (HIGH, LOW), so it never produces a
`(0, 0)` or `(1, 1)` cell. -/
theorem manchester_error_characterization :
    (∀ y : List Nat, y.length % 2 = 0 →
      ((∃ p, EncodingType.decode .Manchester y = .error (.decodingError p)) ↔
        ∃ k, k < 4 * y.length ∧
          ((cellFst y k = 0 ∧ cellSnd y k = 0) ∨ (cellFst y k = 1 ∧ cellSnd y k = 1))) ∧
      (∀ m, m < 4 * y.length →
        ((cellFst y m = 0 ∧ cellSnd y m = 0) ∨ (cellFst y m = 1 ∧ cellSnd y m = 1)) →
        (∀ t, t < m →
          ¬((cellFst y t = 0 ∧ cellSnd y t = 0) ∨ (cellFst y t = 1 ∧ cellSnd y t = 1))) →
        EncodingType.decode .Manchester y = .error (.decodingError (2 * m))) ∧
      ((∀ k, k < 4 * y.length →
          ¬((cellFst y k = 0 ∧ cellSnd y k = 0) ∨ (cellFst y k = 1 ∧ cellSnd y k = 1))) →
        EncodingType.decode .Manchester y =
          .ok (pack (y.length / 2)
            ((List.range (4 * y.length)).map
              (fun k => if cellFst y k = 0 ∧ cellSnd y k = 1 then 1 else 0))))) ∧
    ∀ x : List Nat, ∀ k, k < 8 * x.length →
      (readBit x k = 1 →
        cellFst (EncodingType.encode .Manchester x) k = 0 ∧
          cellSnd (EncodingType.encode .Manchester x) k = 1) ∧
      (readBit x k = 0 →
        cellFst (EncodingType.encode .Manchester x) k = 1 ∧
          cellSnd (EncodingType.encode .Manchester x) k = 0) := by
  constructor
  · intro y h2
    refine ⟨?_, ?_, ?_⟩
    · rw [show EncodingType.decode .Manchester y = manchesterDecode y from rfl,
        manchesterDecode_even y h2]
      cases hfd : firstEqFrom y 0 (4 * y.length) with
      | none =>
        constructor
        · rintro ⟨p, hp⟩
          cases hp
        · rintro ⟨k, hk, hbad⟩
          have hgood := (firstEqFrom_none y (4 * y.length) 0).mp hfd k hk
          rw [Nat.zero_add] at hgood
          exact absurd ((man_bad_iff y k).mp hbad) hgood
      | some m =>
        constructor
        · intro _
          obtain ⟨_, hm2, hm3, _⟩ := firstEqFrom_some y (4 * y.length) 0 m hfd
          exact ⟨m, by omega, (man_bad_iff y m).mpr hm3⟩
        · intro _
          exact ⟨2 * m, rfl⟩
    · intro m hm hbad hgood
      rw [show EncodingType.decode .Manchester y = manchesterDecode y from rfl,
        manchesterDecode_even y h2,
        firstEqFrom_eq_some y (4 * y.length) 0 m (Nat.zero_le m) (by omega)
          ((man_bad_iff y m).mp hbad)
          (fun t _ ht2 => fun heq => hgood t ht2 ((man_bad_iff y t).mpr heq))]
    · intro hall
      rw [show EncodingType.decode .Manchester y = manchesterDecode y from rfl,
        manchesterDecode_even y h2,
        (firstEqFrom_none y (4 * y.length) 0).mpr (fun t ht => by
          rw [Nat.zero_add]
          intro heq
          exact hall t ht ((man_bad_iff y t).mpr heq))]
      rw [manCellBits_as_map]
  · intro x k hk
    have hp := manchesterEncode_cells x k hk
    have hle := readBit_le_one x k
    constructor
    · intro h1
      rw [if_pos h1] at hp
      have h := Prod.mk.injEq .. |>.mp hp
      exact ⟨h.1, h.2⟩
    · intro h0
      rw [if_neg (by omega)] at hp
      have h := Prod.mk.injEq .. |>.mp hp
      exact ⟨h.1, h.2⟩

/-- Witness for C3 (amended): `[0x00, 0x00]` has the bad cell `(0, 0)` at index
0, and the Manchester decoder reports a `DecodingError` at bit position 0. -/
theorem manchester_error_characterization_witness :
    EncodingType.decode .Manchester [0, 0] = .error (.decodingError 0) :=
  (manchester_error_characterization.1 [0, 0] rfl).2.1 0 (by decide)
    (Or.inl (by decide)) (fun t ht => absurd ht (Nat.not_lt_zero t))

/-- C7 counterexample: the FM0 decoder is not total — on the single-byte input
`[0x00]` it attempts an out-of-bounds write (a Rust panic). -/
theorem decoder_totality_cex :
    EncodingType.decode .FM0 [0] = .error .outOfBounds := by decide

/-- C7 (amended): the NRZ and NRZI decoders are total; the FM0 decoder never
returns a `DecodingError` and succeeds on every even-length input, but aborts
with an out-of-bounds access on every odd-length input; hence only the FM1 and
Manchester decoders can return a `DecodingError`. -/
theorem decoder_totality :
    (∀ y : List Nat, EncodingType.decode .NRZ y = .ok y) ∧
    (∀ y : List Nat, ∃ d, EncodingType.decode .NRZI y = .ok d) ∧
    (∀ y : List Nat, y.length % 2 = 0 → ∃ d, EncodingType.decode .FM0 y = .ok d) ∧
    (∀ y : List Nat, y.length % 2 = 1 →
      EncodingType.decode .FM0 y = .error .outOfBounds) ∧
    (∀ y : List Nat, ∀ p, EncodingType.decode .FM0 y ≠ .error (.decodingError p)) := by
  refine ⟨fun y => rfl, fun y => ⟨_, rfl⟩, ?_, ?_, ?_⟩
  · intro y h2
    exact ⟨_, fm0Decode_even y h2⟩
  · intro y h2
    exact fm0Decode_odd y h2
  · intro y p
    rcases Nat.mod_two_eq_zero_or_one y.length with h2 | h2
    · rw [show EncodingType.decode .FM0 y = fm0Decode y from rfl, fm0Decode_even y h2]
      simp
    · rw [show EncodingType.decode .FM0 y = fm0Decode y from rfl, fm0Decode_odd y h2]
      simp

/-- Witness for C7 (amended): the FM0 decoder aborts on the odd-length
input `[0x07]`. -/
theorem decoder_totality_witness :
    EncodingType.decode .FM0 [7] = .error .outOfBounds :=
  decoder_totality.2.2.2.1 [7] (by decide)

/-- C9 counterexample: on the odd-length non-empty input `[0x00]` the
Manchester decoder does not attempt an out-of-bounds write — it rejects cell 0
(which is `(0, 0)`) with a `DecodingError` before reaching the write. -/
theorem decode_bounds_cex :
    EncodingType.decode .Manchester [0] = .error (.decodingError 0) ∧
      EncodingType.decode .Manchester [0] ≠ .error .outOfBounds := by decide

/-- C9 (amended): for every even-length input all buffer accesses of the FM0,
FM1 and Manchester decoders are in bounds (none aborts); for every odd-length
non-empty input the FM0 decoder always attempts an out-of-bounds write, while
the FM1 and Manchester decoders never succeed — each either aborts out of
bounds or fails earlier with a `DecodingError` — and the abort is reachable at
the public decode interface (FM1 on `[0x00]`, Manchester on `[0x99]`). -/
theorem decode_bounds :
    (∀ y : List Nat, y.length % 2 = 0 →
      EncodingType.decode .FM0 y ≠ .error .outOfBounds ∧
      EncodingType.decode .FM1 y ≠ .error .outOfBounds ∧
      EncodingType.decode .Manchester y ≠ .error .outOfBounds) ∧
    (∀ y : List Nat, y.length % 2 = 1 →
      EncodingType.decode .FM0 y = .error .outOfBounds ∧
      (∀ d, EncodingType.decode .FM1 y ≠ .ok d) ∧
      (∀ d, EncodingType.decode .Manchester y ≠ .ok d)) ∧
    EncodingType.decode .FM1 [0] = .error .outOfBounds ∧
    EncodingType.decode .Manchester [153] = .error .outOfBounds := by
  refine ⟨?_, ?_, by decide, by decide⟩
  · intro y h2
    refine ⟨?_, ?_, ?_⟩
    · rw [show EncodingType.decode .FM0 y = fm0Decode y from rfl, fm0Decode_even y h2]
      simp
    · rw [show EncodingType.decode .FM1 y = fm1Decode y from rfl, fm1Decode_even y h2]
      cases firstDiffFrom y 0 (4 * y.length) <;> simp
    · rw [show EncodingType.decode .Manchester y = manchesterDecode y from rfl,
        manchesterDecode_even y h2]
      cases firstEqFrom y 0 (4 * y.length) <;> simp
  · intro y h2
    exact ⟨fm0Decode_odd y h2, fm1Decode_not_ok_odd y h2, manchesterDecode_not_ok_odd y h2⟩

/-- Witness for C9 (amended): the even-length input `[0x01, 0x02]` triggers no
out-of-bounds access in the FM0 decoder. -/
theorem decode_bounds_witness :
    EncodingType.decode .FM0 [1, 2] ≠ .error .outOfBounds :=
  (decode_bounds.1 [1, 2] rfl).1

end RS485
